import Mathlib

/-!
Verification of the `gitmatch` library (gitignore-style path matching).

This file shallow-embeds the code of `src/gitmatch/__init__.py` over
`List Char` (the `str` case on a POSIX host; `bytes` behaves byte-for-byte
identically for the modelled operations).  Pure helper functions (`chomp`,
`trim_trailing_spaces`, `pathway`, `posixpath` fragments) are translated
directly; the pattern translator `pattern2regex` is translated with the
emitted regular-expression *text* represented by an abstract fragment type
`Frag` whose constructors are in one-to-one correspondence with the string
constants of `PARSER_STRS`, and `re.fullmatch` of the emitted expression is
given executable semantics over those fragments.
-/

namespace Gitmatch

/-- The NUL character (`"\0"` in the Python source). -/
def nul : Char := '\x00'

instance {ε α : Type} [DecidableEq ε] [DecidableEq α] :
    DecidableEq (Except ε α) := fun x y =>
  match x, y with
  | .error a, .error b =>
    if h : a = b then isTrue (h ▸ rfl)
    else isFalse fun hc => h (Except.error.inj hc)
  | .ok a, .ok b =>
    if h : a = b then isTrue (h ▸ rfl)
    else isFalse fun hc => h (Except.ok.inj hc)
  | .error _, .ok _ => isFalse fun hc => Except.noConfusion hc
  | .ok _, .error _ => isFalse fun hc => Except.noConfusion hc

/-! ### chomp (source lines 510-516)

```
def chomp(s):
    if s and ord(s[-1:]) == 10: s = s[:-1]
    if s and ord(s[-1:]) == 13: s = s[:-1]
    return s
```
-/

/-- `chomp`: remove one trailing LF (code 10) if present, then one trailing
CR (code 13) if present. -/
def chomp (s : List Char) : List Char :=
  let s1 := if s.getLast? = some '\n' then s.dropLast else s
  if s1.getLast? = some '\r' then s1.dropLast else s1

/-! ### trim_trailing_spaces (source lines 494-507)

The source substitutes the regex `(?<!\\)(?P<keep>(?:\\\\)*(\\[ \t])?)[ \t]*\Z`
by its `keep` group.  Writing `s = core ++ run` where `run` is the maximal
trailing run of spaces/tabs, and `b` for the length of the maximal run of
backslashes at the end of `core`: the leftmost match of that regex starts at
the first position of the backslash run that is reachable (the char before
the match start may not be a backslash), so the match keeps all backslash
pairs, plus (when `b` is odd) the final backslash together with the first
space or tab of `run` (an escaped space), and deletes the rest of `run`.
-/

/-- Is the character a space or a tab? -/
def isSpTab (c : Char) : Bool := c = ' ' || c = '\t'

/-- `trim_trailing_spaces`: remove trailing unescaped space and tab
characters. -/
def trimTrailingSpaces (s : List Char) : List Char :=
  let rs := s.reverse
  let sp := rs.takeWhile isSpTab
  let core := rs.dropWhile isSpTab
  if sp = [] then s
  else
    let b := (core.takeWhile (· = '\\')).length
    if b % 2 = 0 then core.reverse
    else core.reverse ++ [sp.getLastD ' ']

/-! ### pathway (source lines 481-491) and posixpath.dirname

```
def pathway(path):
    pway = []
    while path:
        pway.append(path)
        path = posixpath.dirname(path)
    pway.reverse()
    return pway
```

`posixpath.dirname(p)` takes `p` up to and including its last `/`, then
strips trailing slashes unless the result consists only of slashes.  The
`while` loop of `pathway` does not terminate when `dirname` reaches a fixed
point other than `""` (which happens exactly for inputs beginning with `/`),
so the loop is modelled with explicit fuel: `pathwayFuel fuel p = none`
means the loop did not finish within `fuel` iterations.
-/

/-- `posixpath.dirname` for a `/`-separated path.  `rest` is the reverse of
`p[:i]` where `i = p.rfind("/") + 1` (it is empty when `p` has no slash,
matching `head = p[:0]`); the `rstrip("/")` of `p[:i]` is the reverse of
`rest.dropWhile (· = '/')`. -/
def dirname (p : List Char) : List Char :=
  let rest := p.reverse.dropWhile (· ≠ '/')
  if rest = [] then []
  else if rest.reverse.all (· = '/') then rest.reverse
  else (rest.dropWhile (· = '/')).reverse

/-- The `while` loop of `pathway`, with fuel.  The list is produced in the
final (reversed) order: shallowest ancestor first, the full path last. -/
def pathwayFuel : Nat → List Char → Option (List (List Char))
  | 0, p => if p = [] then some [] else none
  | fuel + 1, p =>
    if p = [] then some []
    else
      match pathwayFuel fuel (dirname p) with
      | none => none
      | some l => some (l ++ [p])

/-- `pathway` terminates on `p` (the `while` loop finishes in finitely many
steps). -/
def pathwayTerminates (p : List Char) : Prop :=
  ∃ fuel, (pathwayFuel fuel p).isSome

/-- `pathway`, run with enough fuel for every terminating input (one
iteration consumes at least one character of the path). -/
def pathwayRun (p : List Char) : List (List Char) :=
  (pathwayFuel (p.length + 1) p).getD []

/-! ### posixpath.normpath

```
def normpath(path):
    if path == '': return '.'
    initial_slashes = path.startswith('/')
    if initial_slashes and path.startswith('//') and not path.startswith('///'):
        initial_slashes = 2
    comps = path.split('/')
    new_comps = []
    for comp in comps:
        if comp in ('', '.'): continue
        if (comp != '..' or (not initial_slashes and not new_comps) or
             (new_comps and new_comps[-1] == '..')):
            new_comps.append(comp)
        elif new_comps:
            new_comps.pop()
    path = '/'.join(new_comps)
    if initial_slashes: path = '/'*initial_slashes + path
    return path or '.'
```
-/

/-- `str.split("/")`: split into components at every slash (empty components
included; the empty string yields `[""]`). -/
def splitSlash : List Char → List (List Char)
  | [] => [[]]
  | '/' :: rest => [] :: splitSlash rest
  | c :: rest =>
    match splitSlash rest with
    | [] => [[c]]
    | g :: gs => (c :: g) :: gs

/-- `"/".join(comps)`. -/
def joinSlash : List (List Char) → List Char
  | [] => []
  | [g] => g
  | g :: gs => g ++ '/' :: joinSlash gs

/-- One step of `normpath`'s component loop. -/
def normStep (initialSlashes : Nat) (acc : List (List Char)) (comp : List Char) :
    List (List Char) :=
  if comp = [] ∨ comp = ['.'] then acc
  else if comp ≠ ['.', '.'] ∨ (initialSlashes = 0 ∧ acc = []) ∨
      acc.getLast? = some ['.', '.'] then acc ++ [comp]
  else if acc ≠ [] then acc.dropLast
  else acc

/-- `posixpath.normpath`. -/
def normpath (p : List Char) : List Char :=
  if p = [] then ['.']
  else
    let initialSlashes : Nat :=
      if p.head? = some '/' then
        if p.take 2 = ['/', '/'] ∧ p.take 3 ≠ ['/', '/', '/'] then 2 else 1
      else 0
    let newComps := (splitSlash p).foldl (normStep initialSlashes) []
    let joined := List.replicate initialSlashes '/' ++ joinSlash newComps
    if joined = [] then ['.'] else joined

/-! ### The data model (source lines 39-210)

The translated regular expression is kept as a list of fragments.  Each
`Frag` constructor corresponds to one string constant of `PARSER_STRS`
(lines 292-347), i.e. to one piece of regex text emitted by
`pattern2regex`; a character class is kept as its list of members (every
member character emitted into the class body is `re.escape`d in the source,
so the class body is semantically the union of its items). -/

/-- One item of a character-class body. -/
inductive ClassItem where
  /-- a single literal character (`re.escape(c)`) -/
  | single (c : Char)
  /-- a character range `lo-hi` -/
  | range (lo hi : Char)
deriving DecidableEq, Repr

/-- A fragment of the emitted regular expression.  The comment after each
constructor is the exact regex text it stands for. -/
inductive Frag where
  /-- `(?:[^/\0]+/)*` (`unanchored_start`) -/
  | unanchoredStart
  /-- `(?:(?:/[^/\0]+)+/?|/)` (`slash_globstar`) -/
  | slashGlobstar
  /-- `/(?:[^/\0]+/)*` (`slash_globstar_slash`) -/
  | slashGlobstarSlash
  /-- `(?:[^/\0]*/)?(?:[^/\0]+/)*` (`globstar_slash`) -/
  | globstarSlash
  /-- `[^/\0]` (`qm`) -/
  | qm
  /-- `[^/\0]*` (`star`) -/
  | star
  /-- `re.escape(c)`: the literal character `c` -/
  | lit (c : Char)
  /-- `(?![/\0])[` + (`^` when `neg`) + items + `]` -/
  | cclass (neg : Bool) (items : List ClassItem)
deriving DecidableEq, Repr

/-- A gitignore pattern converted to a regular expression (class `Regex`,
source lines 182-210; the `regex` string is kept as fragments). -/
structure Regex where
  pattern : List Char
  frags : List Frag
  negative : Bool
  dir_only : Bool
  ignorecase : Bool
deriving DecidableEq, Repr

/-- A compiled gitignore pattern (class `Pattern`, source lines 147-179;
`re.compile` is the identity on the fragment representation). -/
structure Pattern where
  pattern : List Char
  frags : List Frag
  negative : Bool
  dir_only : Bool
  ignorecase : Bool
deriving DecidableEq, Repr

/-- `Regex.compile` (source lines 202-210). -/
def Regex.compile (r : Regex) : Pattern :=
  { pattern := r.pattern, frags := r.frags, negative := r.negative,
    dir_only := r.dir_only, ignorecase := r.ignorecase }

/-! ### Semantics of the emitted regular expression

`[^/\0]` matches any character other than `/` and NUL.  The `(?a:`/`(?ai:`
wrapper restricts classes to ASCII and, with `i`, makes matching
case-insensitive (ASCII case folding); `fullmatch` anchors at both ends. -/

/-- Does a character satisfy `[^/\0]`? -/
def okc (c : Char) : Bool := c ≠ '/' && c ≠ nul

/-- Flip the case of an ASCII letter (for the `(?ai:` flag). -/
def swapAsciiCase (c : Char) : Char :=
  if 'a' ≤ c ∧ c ≤ 'z' then Char.ofNat (c.toNat - 32)
  else if 'A' ≤ c ∧ c ≤ 'Z' then Char.ofNat (c.toNat + 32)
  else c

/-- Character equality, case-insensitively when `ic`. -/
def charEq (ic : Bool) (a c : Char) : Bool :=
  a = c || (ic && swapAsciiCase a = c)

/-- Membership of a character in a class body. -/
def inClass (items : List ClassItem) (c : Char) : Bool :=
  items.any fun it =>
    match it with
    | .single a => a = c
    | .range lo hi => lo ≤ c && c ≤ hi

/-- Class membership, case-insensitively when `ic`. -/
def inClassIC (ic : Bool) (items : List ClassItem) (c : Char) : Bool :=
  inClass items c || (ic && inClass items (swapAsciiCase c))

/-- `(?:[^/\0]+/)*`: a sequence of nonempty `[^/\0]` segments, each followed
by a slash.  `n` is the length of the segment read so far. -/
def segsSSAux : List Char → Nat → Bool
  | [], n => n = 0
  | c :: rest, n =>
    if c = '/' then n ≠ 0 && segsSSAux rest 0
    else okc c && segsSSAux rest (n + 1)

/-- Does `s` match `(?:[^/\0]+/)*` exactly? -/
def segsSS (s : List Char) : Bool := segsSSAux s 0

/-- `(?:/[^/\0]+)+/?` after its first `/` (also accepts the empty remainder,
which corresponds to the `|/` alternative of `slash_globstar`). -/
def segSlashSeqAux : List Char → Nat → Bool
  | [], _ => true
  | c :: rest, n =>
    if c = '/' then n ≠ 0 && segSlashSeqAux rest 0
    else okc c && segSlashSeqAux rest (n + 1)

/-- Does `s` match `(?:[^/\0]*/)?(?:[^/\0]+/)*` exactly? -/
def globstarSlashM (s : List Char) : Bool :=
  segsSS s ||
    (let pre := s.takeWhile okc
     (s.drop pre.length).head? = some '/' && segsSS (s.drop (pre.length + 1)))

/-- Does `s` match a single fragment exactly? -/
def fragMatch (ic : Bool) : Frag → List Char → Bool
  | .unanchoredStart, s => segsSS s
  | .slashGlobstar, s => s.head? = some '/' && segSlashSeqAux s.tail 0
  | .slashGlobstarSlash, s => s.head? = some '/' && segsSS s.tail
  | .globstarSlash, s => globstarSlashM s
  | .qm, s =>
    match s with
    | [c] => okc c
    | _ => false
  | .star, s => s.all okc
  | .lit a, s =>
    match s with
    | [c] => charEq ic a c
    | _ => false
  | .cclass neg items, s =>
    match s with
    | [c] => okc c && (inClassIC ic items c != neg)
    | _ => false

/-- Does `s` match the concatenation of the fragments exactly
(`re.fullmatch`)? -/
def fragsMatch (ic : Bool) : List Frag → List Char → Bool
  | [], s => s = []
  | f :: fs, s =>
    (List.range (s.length + 1)).any fun i =>
      fragMatch ic f (s.take i) && fragsMatch ic fs (s.drop i)

/-- `Pattern.match` (source lines 167-179): dir-only patterns never match
non-directories; otherwise test `regex.fullmatch(path)`. -/
def Pattern.matches (pat : Pattern) (path : List Char) (is_dir : Bool) : Bool :=
  if pat.dir_only && !is_dir then false
  else fragsMatch pat.ignorecase pat.frags path

/-! ### pattern2regex (source lines 352-452)

The tokenizer regex `parser` tries, at the current position and in this
order: `/\*\*\Z`, `/\*\*(/\*\*)*/`, `\*\*/(\*\*/)*`, `\?`, `\*\*?`, `\[`,
`\x5C[^\0]|[^\0\x5C]`.  The second alternative (greedy with backtracking)
consumes exactly `/` followed by the maximal positive number of `**/`
groups, and the third the maximal positive number of `**/` groups.  The
loops are modelled with fuel; `pattern2regex` supplies `length + 1` fuel,
which is never exhausted since every token consumes at least one
character. -/

/-- `InvalidPatternError` (source lines 470-478). -/
structure InvalidPatternError where
  pattern : List Char
deriving DecidableEq, Repr

/-- The number of leading `**/` groups (the maximal repetition count of
`\*\*/(?:\*\*/)*` and `leading_globstar_slash`). -/
def gsReps : List Char → Nat
  | a :: b :: c :: rest =>
    if a = '*' ∧ b = '*' ∧ c = '/' then gsReps rest + 1 else 0
  | _ => 0

/-- `is_anchored = re.compile(r"^/|/.")`, used with `.search`: the pattern
starts with `/`, or contains a `/` followed by a character (`.` does not
match a newline). -/
def hasSlashDot : List Char → Bool
  | '/' :: c :: rest => c ≠ '\n' || hasSlashDot (c :: rest)
  | _ :: rest => hasSlashDot rest
  | [] => false

/-- Does `is_anchored.search(pattern)` find a match? -/
def isAnchored (p : List Char) : Bool :=
  p.head? = some '/' || hasSlashDot p

/-- The `left` and `char`-of-`parser` token `\x5C[^\0]|[^\0\x5C]`: an
escaped non-NUL character, or a single character other than NUL and
backslash.  Returns the (unescaped) character and the rest. -/
def parseEsc1 : List Char → Option (Char × List Char)
  | [] => none
  | a :: t =>
    if a = '\\' then
      match t with
      | [] => none
      | c :: r => if c = nul then none else some (c, r)
    else if a = nul then none
    else some (a, t)

/-- The `right` and `char`-of-`range_parser` token
`\x5C[^\0]|[^\0\x5C\x5D]`: like `parseEsc1` but an unescaped `]` is
excluded. -/
def parseEscNB : List Char → Option (Char × List Char)
  | [] => none
  | a :: t =>
    if a = '\\' then
      match t with
      | [] => none
      | c :: r => if c = nul then none else some (c, r)
    else if a = nul ∨ a = ']' then none
    else some (a, t)

/-- The `left`-`-`-`right` alternative of `range_parser`. -/
def matchLeftRight (s : List Char) : Option (Char × Char × List Char) :=
  match parseEsc1 s with
  | none => none
  | some (l, r1) =>
    if r1.head? = some '-' then
      match parseEscNB r1.tail with
      | none => none
      | some (rt, r2) => some (l, rt, r2)
    else none

/-- After `[:`, the `(?P<posix_class>[^\]]*):\]` part: the name runs up to
the first `]`, which must be directly preceded by `:`. -/
def scanPosix : List Char → Option (List Char × List Char)
  | [] => none
  | a :: t =>
    if a = ':' ∧ t.head? = some ']' then some ([], t.tail)
    else if a = ']' then none
    else (scanPosix t).map fun p => (a :: p.1, p.2)

/-- The `\[:(?P<posix_class>[^\]]*):\]` alternative of `range_parser`. -/
def tryPosix (s : List Char) : Option (List Char × List Char) :=
  if s.head? = some '[' ∧ s.tail.head? = some ':' then scanPosix s.tail.tail
  else none

/-- The `posix_classes` table (source lines 293-306), with each expansion
string decomposed into its ranges and single characters (e.g. `punct`,
whose expansion is the four ranges from `!` to `0x2F`, from `:` to `@`,
from `[` to `0x60` and from `0x7B` to `~`). -/
def posixTable : List (List Char × List ClassItem) :=
  [("alpha".toList, [.range 'A' 'Z', .range 'a' 'z']),
   ("alnum".toList, [.range 'A' 'Z', .range 'a' 'z', .range '0' '9']),
   ("blank".toList, [.single ' ', .single '\t']),
   ("cntrl".toList, [.range '\x00' '\x1F', .single '\x7F']),
   ("digit".toList, [.range '0' '9']),
   ("graph".toList, [.range '!' '~']),
   ("lower".toList, [.range 'a' 'z']),
   ("print".toList, [.range ' ' '~']),
   ("punct".toList,
     [.range '!' '/', .range ':' '@', .range '[' '\x60', .range '\x7b' '~']),
   ("space".toList, [.single '\t', .single '\n', .single '\r', .single ' ']),
   ("upper".toList, [.range 'A' 'Z']),
   ("xdigit".toList, [.range '0' '9', .range 'A' 'F', .range 'a' 'f'])]

/-- Look a POSIX class name up in the table. -/
def posixClassItems (nm : List Char) : Option (List ClassItem) :=
  (posixTable.find? fun p => p.1 = nm).map Prod.snd

/-- One `range_parser` token (source lines 416-440), alternatives in the
order of the regex: `left-right` range, POSIX class, escaped or plain
character, closing `]` (signalled by `none`). -/
def rangeStep (s : List Char) : Except InvalidPatternError
    (Option (List ClassItem) × List Char) :=
  match matchLeftRight s with
  | some (l, rt, r2) =>
    if rt.toNat < l.toNat then .error ⟨[]⟩
    else .ok (some [ClassItem.range l rt], r2)
  | none =>
    match tryPosix s with
    | some (nm, r2) =>
      match posixClassItems nm with
      | some items => .ok (some items, r2)
      | none => .error ⟨[]⟩
    | none =>
      match parseEscNB s with
      | some (c, r2) => .ok (some [ClassItem.single c], r2)
      | none =>
        if s.head? = some ']' then .ok (none, s.tail)
        else .error ⟨[]⟩

/-- The `while True` loop over `range_parser` tokens, with fuel.  Returns
the accumulated class items and the rest after the closing `]`.  (The
error payload is filled in by `pattern2regex`.) -/
def rangeLoopF : Nat → List Char → Except InvalidPatternError
    (List ClassItem × List Char)
  | 0, _ => .error ⟨[]⟩
  | fuel + 1, s =>
    match rangeStep s with
    | .error e => .error e
    | .ok (none, r) => .ok ([], r)
    | .ok (some items, r) =>
      match rangeLoopF fuel r with
      | .error e => .error e
      | .ok (items2, r2) => .ok (items ++ items2, r2)

/-- Does the text start with `-X` for a character `X` other than `]`
(the negative lookahead's body `-[^\]]`)? -/
def afterBracketRange (t : List Char) : Bool :=
  t.head? = some '-' &&
    (match t.tail.head? with
     | some c => c ≠ ']'
     | none => false)

/-- `close_bracket_in_range = re.compile(r"\](?!-[^\]])")`, matched at the
current position. -/
def closeBracketLit (s : List Char) : Bool :=
  s.head? = some ']' && !(afterBracketRange s.tail)

/-- The `openrange` branch (source lines 408-440), after the `[` has been
consumed: optional `^`/`!`, optional literal `]`, then the range loop. -/
def parseClass (s : List Char) : Except InvalidPatternError (Frag × List Char) :=
  let neg : Bool := s.head? = some '^' ∨ s.head? = some '!'
  let s1 := if s.head? = some '^' ∨ s.head? = some '!' then s.tail else s
  let init : List ClassItem :=
    if closeBracketLit s1 then [ClassItem.single ']'] else []
  let s2 := if closeBracketLit s1 then s1.tail else s1
  match rangeLoopF (s2.length + 1) s2 with
  | .error e => .error e
  | .ok (items, r) => .ok (.cclass neg (init ++ items), r)

/-- One `parser` token (source lines 393-444), alternatives in the order of
the regex. -/
def tokStep (s : List Char) : Except InvalidPatternError (Frag × List Char) :=
  if s = ['/', '*', '*'] then .ok (.slashGlobstar, [])
  else if s.head? = some '/' ∧ 1 ≤ gsReps s.tail then
    .ok (.slashGlobstarSlash, s.drop (1 + 3 * gsReps s.tail))
  else if 1 ≤ gsReps s then .ok (.globstarSlash, s.drop (3 * gsReps s))
  else
    match s with
    | [] => .error ⟨[]⟩
    | a :: t =>
      if a = '?' then .ok (.qm, t)
      else if a = '*' then
        if t.head? = some '*' then .ok (.star, t.tail) else .ok (.star, t)
      else if a = '[' then parseClass t
      else if a = '\\' then
        match t with
        | [] => .error ⟨[]⟩
        | c :: r => if c = nul then .error ⟨[]⟩ else .ok (.lit c, r)
      else if a = nul then .error ⟨[]⟩
      else .ok (.lit a, t)

/-- The `while pos < len(pattern)` loop of `pattern2regex`, with fuel. -/
def tokLoopF : Nat → List Char → Except InvalidPatternError (List Frag)
  | 0, _ => .error ⟨[]⟩
  | fuel + 1, s =>
    match s with
    | [] => .ok []
    | _ =>
      match tokStep s with
      | .error e => .error e
      | .ok (f, r) =>
        match tokLoopF fuel r with
        | .error e => .error e
        | .ok fs => .ok (f :: fs)

/-- `pattern2regex` (source lines 352-452): convert a gitignore pattern to
a `Regex`.  `.ok none` models the Python `None` return (empty pattern or
comment); `.error` models raising `InvalidPatternError`, whose payload is
the original pre-trim pattern. -/
def pattern2regex (pat : List Char) (ignorecase : Bool) :
    Except InvalidPatternError (Option Regex) :=
  let orig := pat
  let source := trimTrailingSpaces pat
  if source.head? = some '#' then .ok none
  else
    let negative := source.head? = some '!'
    let p1 := if negative then source.tail else source
    if negative ∧ p1 = [] then .ok none
    else
      let dir_only := p1.getLast? = some '/'
      let p2 := if dir_only then p1.dropLast else p1
      if p2 = [] then .ok none
      else
        let k := gsReps p2
        let pre : List Frag :=
          if 1 ≤ k ∨ ¬ isAnchored p2 then [.unanchoredStart] else []
        let p3 :=
          if 1 ≤ k then p2.drop (3 * k)
          else if p2.head? = some '/' then p2.tail else p2
        match tokLoopF (p3.length + 1) p3 with
        | .error _ => .error ⟨orig⟩
        | .ok frags =>
          .ok (some { pattern := source, frags := pre ++ frags,
                      negative := negative, dir_only := dir_only,
                      ignorecase := ignorecase })

/-! ### compile (source lines 213-239) -/

/-- A collection of compiled gitignore patterns (class `Gitignore`). -/
structure Gitignore where
  patterns : List Pattern
deriving DecidableEq, Repr

/-- The `for pat in patterns` loop of `compile`: chomp each element,
translate it, silently drop comments, empty patterns and translation
errors. -/
def compileList (patterns : List (List Char)) (ignorecase : Bool) :
    List Pattern :=
  match patterns with
  | [] => []
  | pat :: rest =>
    match pattern2regex (chomp pat) ignorecase with
    | .error _ => compileList rest ignorecase
    | .ok none => compileList rest ignorecase
    | .ok (some r) => r.compile :: compileList rest ignorecase

/-- `compile` (source lines 213-239). -/
def compile (patterns : List (List Char)) (ignorecase : Bool) : Gitignore :=
  ⟨compileList patterns ignorecase⟩

/-! ### Gitignore.match (source lines 46-118)

Modelled for a plain string path on a POSIX host: `os.fspath` is the
identity, `os.sep == "/"` so no separator replacement happens, and
`os.path.isabs` tests for a leading slash. -/

/-- `InvalidPathError` (source lines 455-467). -/
structure InvalidPathError where
  msg : List Char
  path : List Char
deriving DecidableEq, Repr

/-- Information about a successful match (class `Match`, source lines
121-144). -/
structure Match where
  pattern_obj : Pattern
  path : List Char
deriving DecidableEq, Repr

/-- `Match.pattern`. -/
def Match.pattern (m : Match) : List Char := m.pattern_obj.pattern

/-- `Match.__bool__`: a `Match` is truthy iff its pattern is not
negative. -/
def Match.toBool (m : Match) : Bool := !m.pattern_obj.negative

/-- The inner `for pat in reversed(self.patterns)` loop (source lines
110-117), on the already-reversed list: the first pattern matching the
ancestor `p` either returns a `Match` or abandons the ancestor
(`brk`); if none matches, control falls through to the next ancestor. -/
inductive InnerOut where
  | ret (m : Match)
  | brk
  | fall
deriving DecidableEq, Repr

/-- Run the inner loop over the (already reversed) pattern list. -/
def innerLoop (pats : List Pattern) (p fullPath : List Char) (is_dir : Bool) :
    InnerOut :=
  match pats with
  | [] => .fall
  | pat :: rest =>
    if pat.matches p (if p = fullPath then is_dir else true) then
      if !pat.negative then .ret ⟨pat, p⟩
      else if p = fullPath then .ret ⟨pat, p⟩
      else .brk
    else innerLoop rest p fullPath is_dir

/-- The outer `for p in pathway(path)` loop (source lines 109-118). -/
def outerLoop (pats : List Pattern) (ways : List (List Char))
    (fullPath : List Char) (is_dir : Bool) : Option Match :=
  match ways with
  | [] => none
  | p :: rest =>
    match innerLoop pats p fullPath is_dir with
    | .ret m => some m
    | _ => outerLoop pats rest fullPath is_dir

/-- `Gitignore.match` (source lines 46-118): validate and normalize the
path, then run the matching loop.  `.error` models raising
`InvalidPathError`. -/
def Gitignore.matchPath (gi : Gitignore) (path : List Char)
    (is_dir : Bool) : Except InvalidPathError (Option Match) :=
  if path = [] then .error ⟨"Empty path".toList, path⟩
  else if path.contains nul then
    .error ⟨"Path contains NUL byte".toList, path⟩
  else if path.head? = some '/' then
    .error ⟨"Path is not relative".toList, path⟩
  else
    let is_dir := if path.getLast? = some '/' then true else is_dir
    let p := if path.getLast? = some '/' then path.dropLast else path
    if normpath p ≠ p then .error ⟨"Path is not normalized".toList, path⟩
    else if p.takeWhile (· ≠ '/') = ['.', '.'] then
      .error ⟨"Path cannot begin with \x27..\x27".toList, path⟩
    else if p = ['.'] then .ok none
    else .ok (outerLoop gi.patterns.reverse (pathwayRun p) p is_dir)

/-- The truthiness of a `match()` result: `bool(None)` is `False`, and a
`Match` is truthy iff its deciding pattern is not negative.  (An exception
is treated as not affirmative.) -/
def affirmative (r : Except InvalidPathError (Option Match)) : Bool :=
  match r with
  | .ok (some m) => m.toBool
  | _ => false

/-! ### The matching loop as the specification states it

A second definition of the loop, written from the specification text
(spec section 4.3, claim C1): enumerate the ancestors shallowest-first;
for an ancestor `p` find the first rule in reverse insertion order that
matches `p` (with `is_dir` forced to true for every proper ancestor); a
non-negated rule decides `Match(rule, p)`; a negated rule decides
`Match(rule, path)` when `p` is the full path and otherwise abandons the
ancestor; the first ancestor with a returned decision wins; if no ancestor
yields a decision, the result is `none`. -/

/-- The decision of a single ancestor per the specification: `some (some m)`
is an immediate return, `some none` abandons the ancestor, `none` means no
rule matched. -/
def specAncestorDecision (rules : List Pattern) (p fullPath : List Char)
    (is_dir : Bool) : Option (Option Match) :=
  match rules.reverse.find?
      (fun r => r.matches p (if p = fullPath then is_dir else true)) with
  | none => none
  | some r =>
    if r.negative = false then some (some ⟨r, p⟩)
    else if p = fullPath then some (some ⟨r, fullPath⟩)
    else some none

/-- The whole matching loop per the specification. -/
def specMatch (rules : List Pattern) (fullPath : List Char) (is_dir : Bool) :
    Option Match :=
  (pathwayRun fullPath).findSome? fun p =>
    match specAncestorDecision rules p fullPath is_dir with
    | some (some m) => some m
    | _ => none

/-- Does `Gitignore.match` raise `InvalidPathError`? -/
def raisesInvalidPath (r : Except InvalidPathError (Option Match)) : Bool :=
  match r with
  | .error _ => true
  | .ok _ => false

/-- The condition of claim C8, written from the specification: the path is
empty, contains a NUL byte, is absolute, differs from its POSIX
normalization aside from one optional trailing slash, or has `..` as its
first segment. -/
def invalidPathCond (path : List Char) : Bool :=
  path = [] || path.contains nul || path.head? = some '/' ||
    (let p := if path.getLast? = some '/' then path.dropLast else path
     !(normpath p == p) || p.takeWhile (· ≠ '/') = ['.', '.'])

/-! ## Helper lemmas -/

theorem head?_append_left {α : Type} {l₁ l₂ : List α} (h : l₁ ≠ []) :
    (l₁ ++ l₂).head? = l₁.head? := by
  cases l₁ with
  | nil => exact absurd rfl h
  | cons a t => simp

theorem head?_eq_of_pre {α : Type} {l₁ l₂ : List α}
    (h : l₁ <+: l₂) (hne : l₁ ≠ []) : l₂.head? = l₁.head? := by
  obtain ⟨t, rfl⟩ := h
  exact head?_append_left hne

theorem head?_dropLast {α : Type} {l : List α} {a b : α}
    (h1 : l.head? = some a) (h2 : l.getLast? = some b) (hne : a ≠ b) :
    l.dropLast.head? = some a := by
  match l with
  | [] => simp at h1
  | [x] =>
    simp at h1 h2
    exact absurd (h1.symm.trans h2) hne
  | x :: y :: t =>
    simp at h1
    simpa using h1

/-! ## Claim C5: chomp idempotence -/

theorem chomp_eq_self {s : List Char} (h1 : s.getLast? ≠ some '\n')
    (h2 : s.getLast? ≠ some '\r') : chomp s = s := by
  unfold chomp
  simp [h1, h2]

theorem chomp_length_lt {s : List Char}
    (h : s.getLast? = some '\n' ∨ s.getLast? = some '\r') :
    (chomp s).length < s.length := by
  have hne : s ≠ [] := by
    intro he
    subst he
    simp at h
  have hlen : 0 < s.length := List.length_pos.mpr hne
  have hd1 : s.dropLast.length < s.length := by
    rw [List.length_dropLast]; omega
  have hd2 : s.dropLast.dropLast.length ≤ s.dropLast.length := by
    rw [List.length_dropLast]; omega
  unfold chomp
  dsimp only
  rcases h with h | h
  · rw [if_pos h]
    split
    · omega
    · exact hd1
  · by_cases hn : s.getLast? = some '\n'
    · rw [if_pos hn]
      split
      · omega
      · exact hd1
    · rw [if_neg hn, if_pos h]
      exact hd1

/-- Claim C5 fails on the code: `chomp` applied to the two-character string
LF-CR gives LF, and applying it again gives the empty string. -/
theorem c5_counterexample :
    ¬ (chomp (chomp "\n\r".toList) = chomp "\n\r".toList) := by decide

/-- C5 (amended): `chomp` strips at most one trailing LF and then at most
one trailing CR; `chomp (chomp s) = chomp s` holds iff `chomp s` does not
itself end in LF or CR (so idempotence holds whenever `s` carries at most
one trailing line ending, but fails e.g. on `"\n\r"` or `"\n\n"`). -/
theorem c5_chomp_idempotent_iff (s : List Char) :
    chomp (chomp s) = chomp s ↔
      ((chomp s).getLast? ≠ some '\n' ∧ (chomp s).getLast? ≠ some '\r') := by
  constructor
  · intro h
    by_contra hc
    rw [not_and_or, not_not, not_not] at hc
    have hlt := chomp_length_lt (s := chomp s) (by tauto)
    rw [h] at hlt
    exact absurd hlt (lt_irrefl _)

  · intro ⟨h1, h2⟩
    exact chomp_eq_self h1 h2

/-! ## Claim C3: the layered-negation example -/

/-- C3: with `["/*", "!/foo", "/foo/*", "!/foo/bar"]` compiled
case-sensitively, `match("foo/bar")` is falsy, `match("foo/quux")` is
truthy, and `match("quux/foo/bar")` is truthy. -/
theorem c3_layered_negation :
    affirmative ((compile ["/*".toList, "!/foo".toList, "/foo/*".toList,
        "!/foo/bar".toList] false).matchPath "foo/bar".toList false) = false ∧
    affirmative ((compile ["/*".toList, "!/foo".toList, "/foo/*".toList,
        "!/foo/bar".toList] false).matchPath "foo/quux".toList false) = true ∧
    affirmative ((compile ["/*".toList, "!/foo".toList, "/foo/*".toList,
        "!/foo/bar".toList] false).matchPath "quux/foo/bar".toList false)
      = true := by
  refine ⟨?_, ?_, ?_⟩ <;> decide

/-! ## Claim C9: interior `**` before a slash -/

/-- C9: the pattern `foo**/bar` matches both `foobar` and
`foo/glarch/bar`. -/
theorem c9_interior_globstar :
    affirmative ((compile ["foo**/bar".toList] false).matchPath
      "foobar".toList false) = true ∧
    affirmative ((compile ["foo**/bar".toList] false).matchPath
      "foo/glarch/bar".toList false) = true := by
  refine ⟨?_, ?_⟩ <;> decide

/-! ## Claim C4: dir-only rules -/

/-- C4: a `dir_only` rule never matches a non-directory leaf, but matches
directory ancestors: `compile(["foo/"])` does not affirm `"foo"` as a
file, affirms `"foo"` as a directory, and affirms `"bar/foo/quux"`. -/
theorem c4_dir_only :
    (∀ (pat : Pattern) (p : List Char), pat.dir_only = true →
        pat.matches p false = false) ∧
    affirmative ((compile ["foo/".toList] false).matchPath
      "foo".toList false) = false ∧
    affirmative ((compile ["foo/".toList] false).matchPath
      "foo".toList true) = true ∧
    affirmative ((compile ["foo/".toList] false).matchPath
      "bar/foo/quux".toList false) = true := by
  refine ⟨?_, by decide, by decide, by decide⟩
  intro pat p h
  simp [Pattern.matches, h]

/-- Witness for C4 at a concrete dir-only pattern. -/
theorem c4_witness :
    (Pattern.mk "foo/".toList [Frag.lit 'f'] false true false).matches
      "foo".toList false = false :=
  c4_dir_only.1 _ _ rfl

/-! ## Claim C6: pathway -/

theorem pre_take {α : Type} (n : Nat) (l : List α) : l.take n <+: l :=
  List.take_prefix n l

theorem rev_pre {α : Type} {l₁ l₂ : List α} (h : l₁ <:+ l₂.reverse) :
    l₁.reverse <+: l₂ := by
  have h2 := List.reverse_prefix.mpr h
  simpa using h2

theorem dropWhile_head?_false {q : Char → Bool} :
    ∀ {l : List Char} {c : Char}, (l.dropWhile q).head? = some c → q c = false
  | [], c => by simp [List.dropWhile]
  | a :: t, c => by
    by_cases h : q a
    · rw [List.dropWhile_cons, if_pos h]
      exact dropWhile_head?_false
    · rw [List.dropWhile_cons, if_neg h]
      intro hh
      simp only [List.head?_cons, Option.some.injEq] at hh
      subst hh
      simpa using h

theorem rev_decomp (p : List Char) (q : Char → Bool) :
    p = (p.reverse.dropWhile q).reverse ++ (p.reverse.takeWhile q).reverse := by
  conv_lhs => rw [← p.reverse_reverse]
  rw [← List.reverse_append, List.takeWhile_append_dropWhile]

/-- Under a non-slash head, the all-slash branch of `dirname` is
unreachable and the function has a closed form. -/
theorem dirname_closed {p : List Char} (hh : p.head? ≠ some '/') :
    dirname p = ((p.reverse.dropWhile (· ≠ '/')).dropWhile (· = '/')).reverse := by
  unfold dirname
  dsimp only
  split
  · rename_i h
    rw [h]
    simp [List.dropWhile]
  · rename_i hne
    split
    · rename_i hall
      exfalso
      have hd : p = (p.reverse.dropWhile (· ≠ '/')).reverse ++
          (p.reverse.takeWhile (· ≠ '/')).reverse := rev_decomp p _
      have hrne : (p.reverse.dropWhile (· ≠ '/')).reverse ≠ [] := by
        simpa using hne
      obtain ⟨c, hc⟩ := Option.ne_none_iff_exists'.mp
        (fun h0 => hrne (List.head?_eq_none_iff.mp h0))
      have hcp : p.head? = some c := by
        rw [hd, head?_append_left hrne, hc]
      have hmem : c ∈ (p.reverse.dropWhile (· ≠ '/')).reverse :=
        List.mem_of_mem_head? (Option.mem_def.mpr hc)
      have : c = '/' := by
        have := List.all_eq_true.mp hall c hmem
        simpa using this
      exact hh (this ▸ hcp)
    · rfl

theorem dirname_pre (p : List Char) : dirname p <+: p := by
  unfold dirname
  dsimp only
  split
  · exact List.nil_prefix
  · split
    · exact rev_pre (List.dropWhile_suffix _)
    · exact rev_pre ((List.dropWhile_suffix _).trans (List.dropWhile_suffix _))

theorem dirname_length_lt {p : List Char} (hne : p ≠ [])
    (hh : p.head? ≠ some '/') : (dirname p).length < p.length := by
  have hlen : 0 < p.length := List.length_pos.mpr hne
  rw [dirname_closed hh]
  cases hrest : p.reverse.dropWhile (· ≠ '/') with
  | nil => simpa using hlen
  | cons a t =>
    have ha : a = '/' := by
      have := dropWhile_head?_false (l := p.reverse) (c := a)
        (by rw [hrest]; rfl)
      simpa using this
    have h1 : (t.dropWhile (· = '/')).length ≤ t.length :=
      (List.dropWhile_suffix _).length_le
    have h2 : (a :: t).length ≤ p.reverse.length :=
      hrest ▸ (List.dropWhile_suffix _).length_le
    simp only [List.dropWhile_cons, ha, List.length_reverse] at h2 ⊢
    simp only [decide_True, if_pos]
    simp only [List.length_cons] at h2
    omega

theorem dirname_slash_after {p : List Char} (hh : p.head? ≠ some '/')
    (hd : dirname p ≠ []) : (p.drop (dirname p).length).head? = some '/' := by
  have hc := dirname_closed hh
  set d := dirname p with hdd
  set rest := p.reverse.dropWhile (· ≠ '/') with hrest
  have hrne : rest ≠ [] := by
    intro h0
    rw [hc, h0] at hd
    simp [List.dropWhile] at hd
  have hsplit : rest = rest.takeWhile (· = '/') ++ rest.dropWhile (· = '/') :=
    (List.takeWhile_append_dropWhile _ _).symm
  have hp : p = d ++
      ((rest.takeWhile (· = '/')).reverse ++
        (p.reverse.takeWhile (· ≠ '/')).reverse) := by
    conv_lhs => rw [rev_decomp p (· ≠ '/')]
    rw [← hrest, hc]
    conv_lhs => rw [hsplit]
    rw [List.reverse_append, List.append_assoc]
  have hrun : rest.takeWhile (· = '/') ≠ [] := by
    obtain ⟨a, t, hat⟩ := List.exists_cons_of_ne_nil hrne
    have ha : a = '/' := by
      have := dropWhile_head?_false (l := p.reverse) (c := a)
        (by rw [← hrest, hat]; rfl)
      simpa using this
    rw [hat, List.takeWhile_cons, ha]
    simp
  have hrunrev : (rest.takeWhile (· = '/')).reverse ≠ [] := by
    simpa using hrun
  have hkey : p.drop d.length =
      (rest.takeWhile (· = '/')).reverse ++
        (p.reverse.takeWhile (· ≠ '/')).reverse := by
    conv_lhs => rw [hp]
    exact List.drop_left _ _
  rw [hkey, head?_append_left hrunrev]
  obtain ⟨c, hcc⟩ := Option.ne_none_iff_exists'.mp
    (fun h0 => hrunrev (List.head?_eq_none_iff.mp h0))
  have hmem : c ∈ rest.takeWhile (· = '/') := by
    have := List.mem_of_mem_head? (Option.mem_def.mpr hcc)
    simpa using this
  have : c = '/' := by
    have := List.mem_takeWhile_imp hmem
    simpa using this
  rw [hcc, this]

theorem pathwayFuel_nil : ∀ fuel, pathwayFuel fuel [] = some [] := by
  intro fuel
  cases fuel <;> simp [pathwayFuel]

theorem pathwayFuel_mono : ∀ {f1 : Nat} {p : List Char} {l : List (List Char)},
    pathwayFuel f1 p = some l → ∀ {f2 : Nat}, f1 ≤ f2 →
    pathwayFuel f2 p = some l := by
  intro f1
  induction f1 with
  | zero =>
    intro p l h f2 _
    simp only [pathwayFuel] at h
    split at h
    · rename_i hp
      subst hp
      rw [pathwayFuel_nil]
      exact h
    · exact absurd h (by simp)
  | succ n ih =>
    intro p l h f2 hle
    by_cases hp : p = []
    · subst hp
      rw [pathwayFuel_nil] at h ⊢
      exact h
    · obtain ⟨m, rfl⟩ : ∃ m, f2 = m + 1 := by
        cases f2
        · omega
        · exact ⟨_, rfl⟩
      simp only [pathwayFuel, if_neg hp] at h ⊢
      cases hrec : pathwayFuel n (dirname p) with
      | none => rw [hrec] at h; exact absurd h (by simp)
      | some l' =>
        rw [hrec] at h
        rw [ih hrec (by omega)]
        exact h

theorem pathway_props : ∀ (n : Nat) (p : List Char), p.length ≤ n →
    p.head? ≠ some '/' →
    ∃ l, pathwayFuel (p.length + 1) p = some l ∧
      l.Chain' (fun a b => a.length < b.length) ∧
      (∀ x ∈ l, x <+: p ∧ (x ≠ p → (p.drop x.length).head? = some '/')) ∧
      (p ≠ [] → l.getLast? = some p) := by
  intro n
  induction n with
  | zero =>
    intro p hlen _
    have hp : p = [] := List.length_eq_zero.mp (by omega)
    subst hp
    exact ⟨[], pathwayFuel_nil _, by simp, by simp, by simp⟩
  | succ n ih =>
    intro p hlen hh
    by_cases hp : p = []
    · subst hp
      exact ⟨[], pathwayFuel_nil _, by simp, by simp, by simp⟩
    · have hdlt : (dirname p).length < p.length := dirname_length_lt hp hh
      have hdh : (dirname p).head? ≠ some '/' := by
        intro hc
        have hdne : dirname p ≠ [] := by
          intro h0
          rw [h0] at hc
          simp at hc
        rw [head?_eq_of_pre (dirname_pre p) hdne] at hh
        exact hh hc
      obtain ⟨l', hfuel, hchain, hpref, hlast⟩ := ih (dirname p) (by omega) hdh
      have hfuel2 : pathwayFuel p.length (dirname p) = some l' :=
        pathwayFuel_mono hfuel (by omega)
      have hl'nil : dirname p = [] → l' = [] := by
        intro h0
        rw [h0, pathwayFuel_nil] at hfuel2
        exact (Option.some.injEq _ _ ▸ hfuel2).symm
      refine ⟨l' ++ [p], ?_, ?_, ?_, fun _ => List.getLast?_concat _⟩
      · simp only [pathwayFuel, if_neg hp]
        rw [hfuel2]
      · rw [List.chain'_append]
        refine ⟨hchain, List.chain'_singleton _, ?_⟩
        intro x hx y hy
        simp only [List.head?_cons, Option.mem_def, Option.some.injEq] at hy
        subst hy
        have hl'ne : l' ≠ [] := by
          intro h0
          rw [h0] at hx
          simp at hx
        have hdne : dirname p ≠ [] := fun h0 => hl'ne (hl'nil h0)
        have := hlast hdne
        rw [Option.mem_def, this, Option.some.injEq] at hx
        subst hx
        exact hdlt
      · intro x hx
        rcases List.mem_append.mp hx with hx | hx
        · obtain ⟨hxd, hxslash⟩ := hpref x hx
          refine ⟨hxd.trans (dirname_pre p), ?_⟩
          intro _
          by_cases hxdeq : x = dirname p
          · have hdne : dirname p ≠ [] := by
              intro h0
              have h00 := hl'nil h0
              rw [h00] at hx
              simp at hx
            rw [hxdeq]
            exact dirname_slash_after hh hdne
          · have h1 := hxslash hxdeq
            obtain ⟨u, hu⟩ := dirname_pre p
            have hxlt : x.length < (dirname p).length :=
              lt_of_le_of_ne hxd.length_le
                (fun hl => hxdeq (List.IsPrefix.eq_of_length hxd hl))
            have hdrop : p.drop x.length = (dirname p).drop x.length ++ u := by
              conv_lhs => rw [← hu]
              exact List.drop_append_of_le_length (le_of_lt hxlt)
            rw [hdrop, head?_append_left]
            · exact h1
            · intro h0
              have := congrArg List.length h0
              simp only [List.length_drop, List.length_nil] at this
              omega
        · simp only [List.mem_singleton] at hx
          subst hx
          exact ⟨List.prefix_refl _, fun h => absurd rfl h⟩

/-- Claim C6 fails on the code: on the input `"/"`, `dirname` is the
identity, so the `while` loop of `pathway` never terminates. -/
theorem c6_counterexample : ¬ pathwayTerminates "/".toList := by
  intro hterm
  obtain ⟨fuel, hf⟩ := hterm
  have hall : ∀ fuel, pathwayFuel fuel "/".toList = none := by
    intro fuel
    induction fuel with
    | zero => decide
    | succ n ih =>
      have hdir : dirname "/".toList = "/".toList := by decide
      simp only [pathwayFuel, hdir, ih]
      decide
  rw [hall fuel] at hf
  simp at hf

/-- C6 (amended): for every input string that does not begin with `/`,
`pathway` terminates (with fuel `length + 1`) and returns a strictly
increasing-in-length list of slash-separated prefixes whose last element
is the input (when the input is nonempty); for `"a/b/c"` it yields
`["a", "a/b", "a/b/c"]`.  (On inputs beginning with `/` the loop
diverges, see the counterexample.) -/
theorem c6_pathway_total :
    (∀ p : List Char, p.head? ≠ some '/' →
      ∃ l, pathwayFuel (p.length + 1) p = some l ∧
        l.Chain' (fun a b => a.length < b.length) ∧
        (∀ x ∈ l, x <+: p ∧ (x ≠ p → (p.drop x.length).head? = some '/')) ∧
        (p ≠ [] → l.getLast? = some p)) ∧
    pathwayRun "a/b/c".toList = ["a".toList, "a/b".toList, "a/b/c".toList] :=
  ⟨fun p => pathway_props p.length p le_rfl, by decide⟩

/-! ## Claim C2: compile never fails and keeps input order -/

/-- Every input splits as its trim plus a run of spaces and tabs. -/
theorem trim_decomp (s : List Char) :
    ∃ u, s = trimTrailingSpaces s ++ u ∧ ∀ c ∈ u, isSpTab c = true := by
  unfold trimTrailingSpaces
  dsimp only
  by_cases hsp : s.reverse.takeWhile isSpTab = []
  · rw [if_pos hsp]
    exact ⟨[], by simp, by simp⟩
  · rw [if_neg hsp]
    have hdec := rev_decomp s isSpTab
    split
    · refine ⟨(s.reverse.takeWhile isSpTab).reverse, hdec, ?_⟩
      intro c hc
      exact List.mem_takeWhile_imp (List.mem_reverse.mp hc)
    · obtain ⟨x, hx⟩ := Option.ne_none_iff_exists'.mp
        (fun h0 => hsp (List.getLast?_eq_none_iff.mp h0))
      have hxd : (s.reverse.takeWhile isSpTab).getLastD ' ' = x := by
        rw [List.getLastD_eq_getLast?, hx]
        rfl
      have hrev : (s.reverse.takeWhile isSpTab).reverse =
          x :: (s.reverse.takeWhile isSpTab).reverse.tail := by
        have : (s.reverse.takeWhile isSpTab).reverse.head? = some x := by
          rw [List.head?_reverse]
          exact hx
        cases hrr : (s.reverse.takeWhile isSpTab).reverse with
        | nil => rw [hrr] at this; simp at this
        | cons a t =>
          rw [hrr] at this
          simp only [List.head?_cons, Option.some.injEq] at this
          rw [this]
          rfl
      refine ⟨(s.reverse.takeWhile isSpTab).reverse.tail, ?_, ?_⟩
      · rw [hxd]
        conv_lhs => rw [hdec]
        rw [List.append_assoc, List.singleton_append, ← hrev]
      · intro c hc
        have : c ∈ (s.reverse.takeWhile isSpTab).reverse := by
          rw [hrev]
          exact List.mem_cons_of_mem _ hc
        exact List.mem_takeWhile_imp (List.mem_reverse.mp this)

/-- Trimming preserves a head that is not a space or tab. -/
theorem trim_head {s : List Char} {c : Char} (h : s.head? = some c)
    (hc : isSpTab c = false) : (trimTrailingSpaces s).head? = some c := by
  unfold trimTrailingSpaces
  dsimp only
  by_cases hsp : s.reverse.takeWhile isSpTab = []
  · rw [if_pos hsp]
    exact h
  · rw [if_neg hsp]
    have hdec := rev_decomp s isSpTab
    have hcore : (s.reverse.dropWhile isSpTab).reverse ≠ [] := by
      intro h0
      have hs : s = (s.reverse.takeWhile isSpTab).reverse := by
        conv_lhs => rw [hdec]
        rw [h0]
        simp
      have hmem : c ∈ s := List.mem_of_mem_head? (Option.mem_def.mpr h)
      rw [hs, List.mem_reverse] at hmem
      rw [List.mem_takeWhile_imp hmem] at hc
      exact absurd hc (by simp)
    have hh : (s.reverse.dropWhile isSpTab).reverse.head? = some c := by
      rw [hdec, head?_append_left hcore] at h
      exact h
    split
    · exact hh
    · rw [head?_append_left hcore]
      exact hh

/-- A head character other than LF and CR survives `chomp`. -/
theorem chomp_head {s : List Char} {c : Char} (h : s.head? = some c)
    (h1 : c ≠ '\n') (h2 : c ≠ '\r') : (chomp s).head? = some c := by
  unfold chomp
  dsimp only
  by_cases hn : s.getLast? = some '\n'
  · rw [if_pos hn]
    have hh : s.dropLast.head? = some c := head?_dropLast h hn h1
    by_cases hr : s.dropLast.getLast? = some '\r'
    · rw [if_pos hr]
      exact head?_dropLast hh hr h2
    · rw [if_neg hr]
      exact hh
  · rw [if_neg hn]
    by_cases hr : s.getLast? = some '\r'
    · rw [if_pos hr]
      exact head?_dropLast h hr h2
    · rw [if_neg hr]
      exact h

/-- If `pattern2regex` returns `None`, the trimmed pattern is a comment or
one of the four degenerate patterns. -/
theorem pattern2regex_none_cases {q : List Char} {ic : Bool}
    (h : pattern2regex q ic = .ok none) :
    (trimTrailingSpaces q).head? = some '#' ∨ trimTrailingSpaces q = [] ∨
    trimTrailingSpaces q = ['!'] ∨ trimTrailingSpaces q = ['/'] ∨
    trimTrailingSpaces q = ['!', '/'] := by
  unfold pattern2regex at h
  dsimp only at h
  by_cases hhash : (trimTrailingSpaces q).head? = some '#'
  · exact Or.inl hhash
  · rw [if_neg hhash] at h
    by_cases hneg : (trimTrailingSpaces q).head? = some '!'
    · simp only [hneg, if_true, true_and] at h
      by_cases htail : (trimTrailingSpaces q).tail = []
      · right; right; left
        cases ht : trimTrailingSpaces q with
        | nil => rw [ht] at hneg; simp at hneg
        | cons a t' =>
          rw [ht] at hneg htail
          simp only [List.head?_cons, Option.some.injEq] at hneg
          simp only [List.tail_cons] at htail
          rw [hneg, htail]
      · rw [if_neg htail] at h
        by_cases hdir : (trimTrailingSpaces q).tail.getLast? = some '/'
        · rw [if_pos hdir] at h
          by_cases hp2 : (trimTrailingSpaces q).tail.dropLast = []
          · right; right; right; right
            have hone : (trimTrailingSpaces q).tail = ['/'] := by
              have hx := List.dropLast_append_getLast? _ (Option.mem_def.mpr hdir)
              rw [hp2] at hx
              simpa using hx.symm
            cases ht : trimTrailingSpaces q with
            | nil => rw [ht] at hneg; simp at hneg
            | cons a t' =>
              rw [ht] at hneg hone
              simp only [List.head?_cons, Option.some.injEq] at hneg
              simp only [List.tail_cons] at hone
              rw [hneg, hone]
          · rw [if_neg hp2] at h
            split at h
            · exact absurd h (by simp)
            · exact absurd h (by simp)
        · rw [if_neg hdir] at h
          by_cases hp2 : (trimTrailingSpaces q).tail = []
          · exact absurd hp2 htail
          · rw [if_neg hp2] at h
            split at h
            · exact absurd h (by simp)
            · exact absurd h (by simp)
    · simp only [hneg, false_and, if_false] at h
      by_cases hdir : (trimTrailingSpaces q).getLast? = some '/'
      · rw [if_pos hdir] at h
        by_cases hp2 : (trimTrailingSpaces q).dropLast = []
        · right; right; right; left
          have hx := List.dropLast_append_getLast? _ (Option.mem_def.mpr hdir)
          rw [hp2] at hx
          simpa using hx.symm
        · rw [if_neg hp2] at h
          split at h
          · exact absurd h (by simp)
          · exact absurd h (by simp)
      · rw [if_neg hdir] at h
        by_cases hp0 : trimTrailingSpaces q = []
        · exact Or.inr (Or.inl hp0)
        · rw [if_neg hp0] at h
          split at h
          · exact absurd h (by simp)
          · exact absurd h (by simp)

/-- A trimmed pattern starting with `#` translates to `None`. -/
theorem pattern2regex_comment {q : List Char} {ic : Bool}
    (h : (trimTrailingSpaces q).head? = some '#') :
    pattern2regex q ic = .ok none := by
  unfold pattern2regex
  dsimp only
  rw [if_pos h]

/-- The four degenerate trimmed patterns translate to `None`. -/
theorem pattern2regex_small {q : List Char} {ic : Bool}
    (h : trimTrailingSpaces q = [] ∨ trimTrailingSpaces q = ['!'] ∨
      trimTrailingSpaces q = ['/'] ∨ trimTrailingSpaces q = ['!', '/']) :
    pattern2regex q ic = .ok none := by
  unfold pattern2regex
  dsimp only
  rcases h with h | h | h | h <;> rw [h] <;> rfl

/-- `compile` under a trim-preserving head: helper equalities relating a
`None` translation of `q` to the translation of `chomp q`. -/
theorem pattern2regex_chomp_none {q : List Char} {ic : Bool}
    (h : pattern2regex q ic = .ok none) :
    pattern2regex (chomp q) ic = .ok none := by
  obtain ⟨u, hqu, hu⟩ := trim_decomp q
  by_cases hun : u = []
  · subst hun
    rw [List.append_nil] at hqu
    rcases pattern2regex_none_cases h with hc | hc | hc | hc | hc
    · have hqh : q.head? = some '#' := by rw [hqu]; exact hc
      have hch := chomp_head hqh (by decide) (by decide)
      exact pattern2regex_comment (trim_head hch (by decide))
    · have hq : q = [] := by rw [hqu, hc]
      have : chomp q = q := by rw [hq]; decide
      rw [this]
      exact h
    · have hq : q = ['!'] := by rw [hqu, hc]
      have : chomp q = q := by rw [hq]; decide
      rw [this]
      exact h
    · have hq : q = ['/'] := by rw [hqu, hc]
      have : chomp q = q := by rw [hq]; decide
      rw [this]
      exact h
    · have hq : q = ['!', '/'] := by rw [hqu, hc]
      have : chomp q = q := by rw [hq]; decide
      rw [this]
      exact h
  · have hlast : ∃ c, q.getLast? = some c ∧ isSpTab c = true := by
      refine ⟨u.getLast (by exact hun), ?_, ?_⟩
      · rw [hqu, List.getLast?_append_of_ne_nil _ hun]
        exact (List.getLast?_eq_getLast _ hun).symm ▸ rfl
      · exact hu _ (List.getLast_mem hun)
    obtain ⟨c, hcl, hcsp⟩ := hlast
    have hcn : c ≠ '\n' := by
      intro he
      rw [he] at hcsp
      exact absurd hcsp (by decide)
    have hcr : c ≠ '\r' := by
      intro he
      rw [he] at hcsp
      exact absurd hcsp (by decide)
    have : chomp q = q := chomp_eq_self
      (by rw [hcl]; simpa using hcn) (by rw [hcl]; simpa using hcr)
    rw [this]
    exact h

theorem compileList_eq_filterMap (patterns : List (List Char)) (ic : Bool) :
    compileList patterns ic = patterns.filterMap fun q =>
      match pattern2regex (chomp q) ic with
      | .ok (some r) => some r.compile
      | _ => none := by
  induction patterns with
  | nil => rfl
  | cons pat rest ih =>
    simp only [compileList, List.filterMap_cons]
    cases h : pattern2regex (chomp pat) ic with
    | error e => simpa [h] using ih
    | ok o =>
      cases o with
      | none => simpa [h] using ih
      | some r => simpa [h] using ih

/-- C2: `compile` is total (modelled as a total function into `Gitignore`):
chomped elements that are empty, comments, or translation failures are
silently dropped, the ruleset holds exactly the successfully translated
patterns in input order, and a pattern whose translation is `None` yields
an empty ruleset. -/
theorem c2_compile_total :
    (∀ (patterns : List (List Char)) (ic : Bool),
      compile patterns ic = ⟨patterns.filterMap fun q =>
        match pattern2regex (chomp q) ic with
        | .ok (some r) => some r.compile
        | _ => none⟩) ∧
    (∀ (q : List Char) (ic : Bool), pattern2regex q ic = .ok none →
      compile [q] ic = ⟨[]⟩) := by
  constructor
  · intro patterns ic
    unfold compile
    rw [compileList_eq_filterMap]
  · intro q ic h
    unfold compile
    simp only [compileList, pattern2regex_chomp_none h]

/-- Witness for C2 at the comment pattern `"#"`. -/
theorem c2_witness :
    pattern2regex "#".toList false = .ok none ∧
      compile ["#".toList] false = ⟨[]⟩ :=
  ⟨by decide, c2_compile_total.2 _ _ (by decide)⟩

/-! ## Claim C1: the matching loop, and Claim C10 -/

theorem innerLoop_eq_find (pats : List Pattern) (p full : List Char) (d : Bool) :
    innerLoop pats p full d =
      match pats.find? (fun r => r.matches p (if p = full then d else true)) with
      | none => .fall
      | some r =>
        if !r.negative then .ret ⟨r, p⟩
        else if p = full then .ret ⟨r, p⟩
        else .brk := by
  induction pats with
  | nil => rfl
  | cons pat rest ih =>
    cases h : pat.matches p (if p = full then d else true) with
    | true =>
      simp only [innerLoop, List.find?_cons, h]
      simp
    | false =>
      simp only [innerLoop, List.find?_cons, h]
      simpa using ih

theorem outerLoop_eq_findSome (pats : List Pattern) (ways : List (List Char))
    (full : List Char) (d : Bool) :
    outerLoop pats ways full d = ways.findSome? (fun p =>
      match innerLoop pats p full d with
      | .ret m => some m
      | _ => none) := by
  induction ways with
  | nil => rfl
  | cons w rest ih =>
    simp only [outerLoop, List.findSome?_cons]
    cases h : innerLoop pats w full d <;> simp [ih]

theorem outer_spec (pats : List Pattern) (full : List Char) (d : Bool) :
    outerLoop pats.reverse (pathwayRun full) full d = specMatch pats full d := by
  rw [outerLoop_eq_findSome]
  unfold specMatch
  congr 1
  funext p
  rw [innerLoop_eq_find]
  unfold specAncestorDecision
  cases h : pats.reverse.find?
      (fun r => r.matches p (if p = full then d else true)) with
  | none => simp
  | some r =>
    by_cases hneg : r.negative
    · by_cases hpf : p = full
      · subst hpf
        simp [hneg]
      · simp [hneg, hpf]
    · simp [hneg]

/-- C1: for every valid normalized query (one that `match` accepts and that
is not the current directory `"."`), the result of `Gitignore.match` is
exactly the decision of the specification loop: ancestors shallowest
first, rules in reverse insertion order with `is_dir` forced true on
proper ancestors, a first-matching non-negated rule returns immediately, a
negated rule returns on the full path and abandons a proper ancestor, and
`none` results when no ancestor decides. -/
theorem matchPath_ok_eq {gi : Gitignore} {path : List Char} {is_dir : Bool}
    {r : Option Match} (hok : gi.matchPath path is_dir = .ok r) :
    r = (if (if path.getLast? = some '/' then path.dropLast else path) = ['.']
         then none
         else outerLoop gi.patterns.reverse
           (pathwayRun
             (if path.getLast? = some '/' then path.dropLast else path))
           (if path.getLast? = some '/' then path.dropLast else path)
           (if path.getLast? = some '/' then true else is_dir)) := by
  unfold Gitignore.matchPath at hok
  dsimp only at hok
  by_cases h1 : path = []
  · rw [if_pos h1] at hok
    exact absurd hok (by simp)
  · rw [if_neg h1] at hok
    by_cases h2 : path.contains nul = true
    · rw [if_pos h2] at hok
      exact absurd hok (by simp)
    · rw [if_neg h2] at hok
      by_cases h3 : path.head? = some '/'
      · rw [if_pos h3] at hok
        exact absurd hok (by simp)
      · rw [if_neg h3] at hok
        by_cases h4 : path.getLast? = some '/'
        · simp only [if_pos h4] at hok ⊢
          split at hok
          · exact absurd hok (by simp)
          · split at hok
            · exact absurd hok (by simp)
            · split at hok
              · rename_i hd
                rw [if_pos hd]
                injection hok with hok
                exact hok.symm
              · rename_i hd
                rw [if_neg hd]
                injection hok with hok
                exact hok.symm
        · simp only [if_neg h4] at hok ⊢
          split at hok
          · exact absurd hok (by simp)
          · split at hok
            · exact absurd hok (by simp)
            · split at hok
              · rename_i hd
                rw [if_pos hd]
                injection hok with hok
                exact hok.symm
              · rename_i hd
                rw [if_neg hd]
                injection hok with hok
                exact hok.symm

/-- C1: ... (statement below). -/
theorem c1_match_loop (gi : Gitignore) (path : List Char) (is_dir : Bool)
    (r : Option Match)
    (hok : gi.matchPath path is_dir = .ok r)
    (hdot : (if path.getLast? = some '/' then path.dropLast else path) ≠ ['.']) :
    r = specMatch gi.patterns
      (if path.getLast? = some '/' then path.dropLast else path)
      (if path.getLast? = some '/' then true else is_dir) := by
  have h := matchPath_ok_eq hok
  rw [if_neg hdot] at h
  rw [h, outer_spec]

/-- Witness for C1 at a concrete ruleset and path. -/
theorem c1_witness :
    ((compile ["foo".toList] false).matchPath "bar/foo".toList false =
        .ok (specMatch (compile ["foo".toList] false).patterns
          "bar/foo".toList false)) := by
  have h0 : (compile ["foo".toList] false).matchPath "bar/foo".toList false =
      .ok (outerLoop (compile ["foo".toList] false).patterns.reverse
        (pathwayRun "bar/foo".toList) "bar/foo".toList false) := by rfl
  have h := c1_match_loop (compile ["foo".toList] false) "bar/foo".toList
    false _ h0 (by decide)
  rw [h0]
  have hif : (if "bar/foo".toList.getLast? = some '/' then
      "bar/foo".toList.dropLast else "bar/foo".toList) = "bar/foo".toList := by
    decide
  rw [hif] at h
  rw [show (if "bar/foo".toList.getLast? = some '/' then true else false)
    = false by decide] at h
  rw [h]

theorem innerLoop_ret {pats : List Pattern} {p full : List Char} {d : Bool}
    {m : Match} (h : innerLoop pats p full d = .ret m) :
    m.path = p ∧ (m.pattern_obj.negative = true → p = full) := by
  induction pats with
  | nil => simp [innerLoop] at h
  | cons pat rest ih =>
    simp only [innerLoop] at h
    by_cases hm : pat.matches p (if p = full then d else true) = true
    · rw [if_pos hm] at h
      by_cases hneg : (!pat.negative) = true
      · rw [if_pos hneg] at h
        injection h with h
        subst h
        refine ⟨rfl, fun hn => ?_⟩
        simp only [Bool.not_eq_true'] at hneg
        rw [hneg] at hn
        exact absurd hn (by simp)
      · rw [if_neg hneg] at h
        by_cases hpf : p = full
        · rw [if_pos hpf] at h
          injection h with h
          subst h
          exact ⟨rfl, fun _ => hpf⟩
        · rw [if_neg hpf] at h
          exact absurd h (by simp)
    · rw [if_neg hm] at h
      exact ih h

theorem outerLoop_ret {pats : List Pattern} {ways : List (List Char)}
    {full : List Char} {d : Bool} {m : Match}
    (h : outerLoop pats ways full d = some m) :
    ∃ p ∈ ways, innerLoop pats p full d = .ret m := by
  induction ways with
  | nil => simp [outerLoop] at h
  | cons w rest ih =>
    simp only [outerLoop] at h
    cases hin : innerLoop pats w full d with
    | ret m' =>
      rw [hin] at h
      injection h with h
      subst h
      exact ⟨w, by simp, hin⟩
    | brk =>
      rw [hin] at h
      obtain ⟨p, hp, hi⟩ := ih h
      exact ⟨p, by simp [hp], hi⟩
    | fall =>
      rw [hin] at h
      obtain ⟨p, hp, hi⟩ := ih h
      exact ⟨p, by simp [hp], hi⟩

/-- C10: a `Match` decided by a negative rule always carries the full
normalized query path, never a proper ancestor. -/
theorem c10_negative_full_path (gi : Gitignore) (path : List Char)
    (is_dir : Bool) (m : Match)
    (hok : gi.matchPath path is_dir = .ok (some m))
    (hneg : m.pattern_obj.negative = true) :
    m.path = (if path.getLast? = some '/' then path.dropLast else path) := by
  have h := matchPath_ok_eq hok
  by_cases hdot :
      (if path.getLast? = some '/' then path.dropLast else path) = ['.']
  · rw [if_pos hdot] at h
    exact absurd h (by simp)
  · rw [if_neg hdot] at h
    obtain ⟨p, _, hin⟩ := outerLoop_ret h.symm
    obtain ⟨hpath, himp⟩ := innerLoop_ret hin
    rw [hpath, himp hneg]

/-- Witness for C10 at a concrete negated match. -/
theorem c10_witness :
    (Match.mk (Pattern.mk "!foo".toList
      [Frag.unanchoredStart, Frag.lit 'f', Frag.lit 'o', Frag.lit 'o']
      true false false) "foo".toList).path = "foo".toList := by
  have h0 : (compile ["*".toList, "!foo".toList] false).matchPath
      "foo".toList false = .ok (some (Match.mk (Pattern.mk "!foo".toList
        [Frag.unanchoredStart, Frag.lit 'f', Frag.lit 'o', Frag.lit 'o']
        true false false) "foo".toList)) := by rfl
  have h := c10_negative_full_path _ _ _ _ h0 rfl
  rw [h]
  decide

/-! ## Claim C8: InvalidPathError -/

theorem matchPath_raises_iff (gi : Gitignore) (path : List Char)
    (is_dir : Bool) :
    raisesInvalidPath (gi.matchPath path is_dir) = invalidPathCond path := by
  unfold Gitignore.matchPath invalidPathCond
  dsimp only
  by_cases h1 : path = []
  · rw [if_pos h1]
    simp [raisesInvalidPath, h1]
  · rw [if_neg h1]
    by_cases h2 : path.contains nul = true
    · rw [if_pos h2]
      have h2' : nul ∈ path := by simpa using h2
      simp [raisesInvalidPath, h1, h2']
    · rw [if_neg h2]
      have h2' : nul ∉ path := by simpa using h2
      by_cases h3 : path.head? = some '/'
      · rw [if_pos h3]
        simp [raisesInvalidPath, h1, h2', h3]
      · rw [if_neg h3]
        by_cases h4 : path.getLast? = some '/'
        · simp only [if_pos h4]
          by_cases h5 : normpath path.dropLast ≠ path.dropLast
          · rw [if_pos h5]
            simp [raisesInvalidPath, h1, h2', h3, h5]
          · rw [if_neg h5]
            rw [not_not] at h5
            by_cases h6 : path.dropLast.takeWhile (· ≠ '/') = ['.', '.']
            · rw [if_pos h6]
              simp only [ne_eq, decide_not] at h6
              simp [raisesInvalidPath, h1, h2', h3, h5, h6]
            · rw [if_neg h6]
              simp only [ne_eq, decide_not] at h6
              by_cases h7 : path.dropLast = ['.']
              · rw [if_pos h7]
                simp [raisesInvalidPath, h1, h2', h3, h5, h6]
              · rw [if_neg h7]
                simp [raisesInvalidPath, h1, h2', h3, h5, h6]
        · simp only [if_neg h4]
          by_cases h5 : normpath path ≠ path
          · rw [if_pos h5]
            simp [raisesInvalidPath, h1, h2', h3, h5]
          · rw [if_neg h5]
            rw [not_not] at h5
            by_cases h6 : path.takeWhile (· ≠ '/') = ['.', '.']
            · rw [if_pos h6]
              simp only [ne_eq, decide_not] at h6
              simp [raisesInvalidPath, h1, h2', h3, h5, h6]
            · rw [if_neg h6]
              simp only [ne_eq, decide_not] at h6
              by_cases h7 : path = ['.']
              · rw [if_pos h7]
                simp [raisesInvalidPath, h1, h2', h3, h5, h6]
              · rw [if_neg h7]
                simp [raisesInvalidPath, h1, h2', h3, h5, h6]

theorem matchPath_error_payload (gi : Gitignore) (path : List Char)
    (is_dir : Bool) (e : InvalidPathError)
    (he : gi.matchPath path is_dir = .error e) :
    e.path = path ∧
      (e.msg = "Empty path".toList ∨
       e.msg = "Path contains NUL byte".toList ∨
       e.msg = "Path is not relative".toList ∨
       e.msg = "Path is not normalized".toList ∨
       e.msg = "Path cannot begin with \x27..\x27".toList) := by
  unfold Gitignore.matchPath at he
  dsimp only at he
  by_cases h1 : path = []
  · rw [if_pos h1] at he
    injection he with he
    subst he
    exact ⟨rfl, Or.inl rfl⟩
  · rw [if_neg h1] at he
    by_cases h2 : path.contains nul = true
    · rw [if_pos h2] at he
      injection he with he
      subst he
      exact ⟨rfl, Or.inr (Or.inl rfl)⟩
    · rw [if_neg h2] at he
      by_cases h3 : path.head? = some '/'
      · rw [if_pos h3] at he
        injection he with he
        subst he
        exact ⟨rfl, Or.inr (Or.inr (Or.inl rfl))⟩
      · rw [if_neg h3] at he
        by_cases h4 : path.getLast? = some '/'
        · simp only [if_pos h4] at he
          by_cases h5 : normpath path.dropLast ≠ path.dropLast
          · rw [if_pos h5] at he
            injection he with he
            subst he
            exact ⟨rfl, Or.inr (Or.inr (Or.inr (Or.inl rfl)))⟩
          · rw [if_neg h5] at he
            by_cases h6 : path.dropLast.takeWhile (· ≠ '/') = ['.', '.']
            · rw [if_pos h6] at he
              injection he with he
              subst he
              exact ⟨rfl, Or.inr (Or.inr (Or.inr (Or.inr rfl)))⟩
            · rw [if_neg h6] at he
              by_cases h7 : path.dropLast = ['.']
              · rw [if_pos h7] at he
                exact absurd he (by simp)
              · rw [if_neg h7] at he
                exact absurd he (by simp)
        · simp only [if_neg h4] at he
          by_cases h5 : normpath path ≠ path
          · rw [if_pos h5] at he
            injection he with he
            subst he
            exact ⟨rfl, Or.inr (Or.inr (Or.inr (Or.inl rfl)))⟩
          · rw [if_neg h5] at he
            by_cases h6 : path.takeWhile (· ≠ '/') = ['.', '.']
            · rw [if_pos h6] at he
              injection he with he
              subst he
              exact ⟨rfl, Or.inr (Or.inr (Or.inr (Or.inr rfl)))⟩
            · rw [if_neg h6] at he
              by_cases h7 : path = ['.']
              · rw [if_pos h7] at he
                exact absurd he (by simp)
              · rw [if_neg h7] at he
                exact absurd he (by simp)

/-- C8: `Gitignore.match` raises `InvalidPathError` exactly when the path
is empty, contains NUL, is absolute, differs from its POSIX normalization
aside from one optional trailing slash, or has `..` as its first segment,
and every raised error carries one of the five diagnostic messages
together with the original unmodified input. -/
theorem c8_invalid_path_exactly (gi : Gitignore) (path : List Char)
    (is_dir : Bool) :
    raisesInvalidPath (gi.matchPath path is_dir) = invalidPathCond path ∧
    (∀ e, gi.matchPath path is_dir = .error e → e.path = path ∧
      (e.msg = "Empty path".toList ∨
       e.msg = "Path contains NUL byte".toList ∨
       e.msg = "Path is not relative".toList ∨
       e.msg = "Path is not normalized".toList ∨
       e.msg = "Path cannot begin with \x27..\x27".toList)) :=
  ⟨matchPath_raises_iff gi path is_dir,
   fun e he => matchPath_error_payload gi path is_dir e he⟩

/-- Witness for C8 at the empty path. -/
theorem c8_witness :
    (InvalidPathError.mk "Empty path".toList ([] : List Char)).path = [] ∧
      ((InvalidPathError.mk "Empty path".toList ([] : List Char)).msg
          = "Empty path".toList ∨
        (InvalidPathError.mk "Empty path".toList ([] : List Char)).msg
          = "Path contains NUL byte".toList ∨
        (InvalidPathError.mk "Empty path".toList ([] : List Char)).msg
          = "Path is not relative".toList ∨
        (InvalidPathError.mk "Empty path".toList ([] : List Char)).msg
          = "Path is not normalized".toList ∨
        (InvalidPathError.mk "Empty path".toList ([] : List Char)).msg
          = "Path cannot begin with \x27..\x27".toList) :=
  (c8_invalid_path_exactly (Gitignore.mk []) [] false).2 _ (by rfl)

/-! ## Claim C7: invalid patterns

A NUL character can never be consumed by any token of the `parser` or
`range_parser` regexes (the only alternative that can swallow one, the
POSIX class name `[^\]]*`, then fails the table lookup), so tokenization
of a pattern containing NUL always raises. -/

theorem mem_tail_of_head {l : List Char} {a c : Char}
    (hm : c ∈ l) (hh : l.head? = some a) (hne : c ≠ a) : c ∈ l.tail := by
  cases l with
  | nil => simp at hm
  | cons x t =>
    simp only [List.head?_cons, Option.some.injEq] at hh
    subst hh
    simp only [List.mem_cons] at hm
    rcases hm with hm | hm
    · exact absurd hm hne
    · simpa using hm

theorem parseEsc1_nul {s : List Char} {c : Char} {r : List Char}
    (h : parseEsc1 s = some (c, r)) (hn : nul ∈ s) : nul ∈ r := by
  cases s with
  | nil => simp [parseEsc1] at h
  | cons a t =>
    simp only [parseEsc1] at h
    simp only [List.mem_cons] at hn
    by_cases ha : a = '\\'
    · rw [if_pos ha] at h
      cases t with
      | nil => exact absurd h (by simp)
      | cons b t' =>
        dsimp only at h
        simp only [List.mem_cons] at hn
        by_cases hb : b = nul
        · rw [if_pos hb] at h
          exact absurd h (by simp)
        · rw [if_neg hb] at h
          injection h with h
          rw [Prod.mk.injEq] at h
          rw [← h.2]
          rcases hn with hn | hn | hn
          · exact absurd ha (by rw [← hn]; decide)
          · exact absurd hn.symm hb
          · exact hn
    · rw [if_neg ha] at h
      by_cases hnul : a = nul
      · rw [if_pos hnul] at h
        exact absurd h (by simp)
      · rw [if_neg hnul] at h
        injection h with h
        rw [Prod.mk.injEq] at h
        rw [← h.2]
        rcases hn with hn | hn
        · exact absurd hn.symm hnul
        · exact hn

theorem parseEscNB_nul {s : List Char} {c : Char} {r : List Char}
    (h : parseEscNB s = some (c, r)) (hn : nul ∈ s) : nul ∈ r := by
  cases s with
  | nil => simp [parseEscNB] at h
  | cons a t =>
    simp only [parseEscNB] at h
    simp only [List.mem_cons] at hn
    by_cases ha : a = '\\'
    · rw [if_pos ha] at h
      cases t with
      | nil => exact absurd h (by simp)
      | cons b t' =>
        dsimp only at h
        simp only [List.mem_cons] at hn
        by_cases hb : b = nul
        · rw [if_pos hb] at h
          exact absurd h (by simp)
        · rw [if_neg hb] at h
          injection h with h
          rw [Prod.mk.injEq] at h
          rw [← h.2]
          rcases hn with hn | hn | hn
          · exact absurd ha (by rw [← hn]; decide)
          · exact absurd hn.symm hb
          · exact hn
    · rw [if_neg ha] at h
      by_cases hnul : a = nul ∨ a = ']'
      · rw [if_pos hnul] at h
        exact absurd h (by simp)
      · rw [if_neg hnul] at h
        injection h with h
        rw [Prod.mk.injEq] at h
        rw [← h.2]
        rcases hn with hn | hn
        · exact absurd (Or.inl hn.symm) hnul
        · exact hn

theorem matchLeftRight_nul {s : List Char} {l rt : Char} {r : List Char}
    (h : matchLeftRight s = some (l, rt, r)) (hn : nul ∈ s) : nul ∈ r := by
  unfold matchLeftRight at h
  cases h1 : parseEsc1 s with
  | none => rw [h1] at h; exact absurd h (by simp)
  | some p =>
    rw [h1] at h
    obtain ⟨l', r1⟩ := p
    dsimp only at h
    by_cases hd : r1.head? = some '-'
    · rw [if_pos hd] at h
      cases h2 : parseEscNB r1.tail with
      | none => rw [h2] at h; exact absurd h (by simp)
      | some p2 =>
        rw [h2] at h
        obtain ⟨rt', r2⟩ := p2
        dsimp only at h
        injection h with h
        rw [Prod.mk.injEq] at h
        obtain ⟨-, h⟩ := h
        rw [Prod.mk.injEq] at h
        rw [← h.2]
        have hr1 : nul ∈ r1 := parseEsc1_nul h1 hn
        have hr1t : nul ∈ r1.tail := by
          cases r1 with
          | nil => simp at hr1
          | cons b t =>
            simp only [List.head?_cons, Option.some.injEq] at hd
            simp only [List.mem_cons] at hr1
            rcases hr1 with hr1 | hr1
            · rw [← hr1] at hd
              exact absurd hd (by decide)
            · exact hr1
        exact parseEscNB_nul h2 hr1t
    · rw [if_neg hd] at h
      exact absurd h (by simp)

theorem scanPosix_decomp : ∀ {s nm r : List Char},
    scanPosix s = some (nm, r) → s = nm ++ ':' :: ']' :: r := by
  intro s
  induction s with
  | nil => intro nm r h; simp [scanPosix] at h
  | cons a t ih =>
    intro nm r h
    simp only [scanPosix] at h
    by_cases hstop : a = ':' ∧ t.head? = some ']'
    · rw [if_pos hstop] at h
      injection h with h
      rw [Prod.mk.injEq] at h
      obtain ⟨h1, h2⟩ := h
      obtain ⟨ha, hb⟩ := hstop
      subst ha
      rw [← h1, ← h2]
      cases t with
      | nil => simp at hb
      | cons b t' =>
        simp only [List.head?_cons, Option.some.injEq] at hb
        subst hb
        rfl
    · rw [if_neg hstop] at h
      by_cases hbr : a = ']'
      · rw [if_pos hbr] at h
        exact absurd h (by simp)
      · rw [if_neg hbr] at h
        cases hsc : scanPosix t with
        | none => rw [hsc] at h; simp at h
        | some p =>
          rw [hsc] at h
          obtain ⟨nm', r'⟩ := p
          simp only [Option.map_some', Option.some.injEq, Prod.mk.injEq] at h
          obtain ⟨h1, h2⟩ := h
          rw [← h1, ← h2]
          have := ih hsc
          rw [this]
          rfl

theorem posixClassItems_no_nul {nm : List Char} {items : List ClassItem}
    (h : posixClassItems nm = some items) : nul ∉ nm := by
  unfold posixClassItems at h
  cases hf : posixTable.find? fun p => p.1 = nm with
  | none => rw [hf] at h; simp at h
  | some p =>
    have hmem := List.mem_of_find?_eq_some hf
    have heq : p.1 = nm := by
      have := List.find?_some hf
      simpa using this
    rw [← heq]
    revert hmem
    have : ∀ x ∈ posixTable, nul ∉ x.1 := by decide
    exact fun hmem => this p hmem

theorem rangeStep_nul {s : List Char} {x : Option (List ClassItem)}
    {r : List Char} (h : rangeStep s = .ok (x, r)) (hn : nul ∈ s) :
    nul ∈ r := by
  unfold rangeStep at h
  cases hlr : matchLeftRight s with
  | some p =>
    rw [hlr] at h
    obtain ⟨l, rt, r2⟩ := p
    dsimp only at h
    split at h
    · exact absurd h (by simp)
    · injection h with h
      rw [Prod.mk.injEq] at h
      rw [← h.2]
      exact matchLeftRight_nul hlr hn
  | none =>
    rw [hlr] at h
    dsimp only at h
    cases hpx : tryPosix s with
    | some p =>
      rw [hpx] at h
      obtain ⟨nm, r2⟩ := p
      dsimp only at h
      cases hcl : posixClassItems nm with
      | none => rw [hcl] at h; exact absurd h (by simp)
      | some items =>
        rw [hcl] at h
        dsimp only at h
        injection h with h
        rw [Prod.mk.injEq] at h
        rw [← h.2]
        unfold tryPosix at hpx
        split at hpx
        · rename_i hcond
          obtain ⟨ha, hb⟩ := hcond
          have hdec := scanPosix_decomp hpx
          have hs : s = '[' :: ':' :: (nm ++ ':' :: ']' :: r2) := by
            cases s with
            | nil => simp at ha
            | cons u v =>
              simp only [List.head?_cons, Option.some.injEq] at ha
              subst ha
              cases v with
              | nil => simp at hb
              | cons w v' =>
                simp only [List.tail_cons, List.head?_cons,
                  Option.some.injEq] at hb hdec
                subst hb
                rw [hdec]
          rw [hs] at hn
          have hnm := posixClassItems_no_nul hcl
          simp only [List.mem_cons, List.mem_append] at hn
          rcases hn with hn | hn | hn | hn
          · exact absurd hn.symm (by decide)
          · exact absurd hn.symm (by decide)
          · exact absurd hn hnm
          · rcases hn with hn | hn | hn
            · exact absurd hn.symm (by decide)
            · exact absurd hn.symm (by decide)
            · exact hn
        · exact absurd hpx (by simp)
    | none =>
      rw [hpx] at h
      dsimp only at h
      cases hes : parseEscNB s with
      | some p =>
        rw [hes] at h
        obtain ⟨c, r2⟩ := p
        dsimp only at h
        injection h with h
        rw [Prod.mk.injEq] at h
        rw [← h.2]
        exact parseEscNB_nul hes hn
      | none =>
        rw [hes] at h
        dsimp only at h
        split at h
        · rename_i hbr
          injection h with h
          rw [Prod.mk.injEq] at h
          rw [← h.2]
          exact mem_tail_of_head hn hbr (by decide)
        · exact absurd h (by simp)

theorem rangeLoopF_nul : ∀ (fuel : Nat) {s : List Char}
    {items : List ClassItem} {r : List Char},
    rangeLoopF fuel s = .ok (items, r) → nul ∈ s → nul ∈ r := by
  intro fuel
  induction fuel with
  | zero =>
    intro s items r h _
    simp [rangeLoopF] at h
  | succ n ih =>
    intro s items r h hn
    simp only [rangeLoopF] at h
    cases hstep : rangeStep s with
    | error e => rw [hstep] at h; exact absurd h (by simp)
    | ok p =>
      rw [hstep] at h
      obtain ⟨x, r1⟩ := p
      cases x with
      | none =>
        dsimp only at h
        injection h with h
        rw [Prod.mk.injEq] at h
        rw [← h.2]
        exact rangeStep_nul hstep hn
      | some its =>
        dsimp only at h
        cases hrec : rangeLoopF n r1 with
        | error e => rw [hrec] at h; exact absurd h (by simp)
        | ok p2 =>
          rw [hrec] at h
          obtain ⟨its2, r2⟩ := p2
          dsimp only at h
          injection h with h
          rw [Prod.mk.injEq] at h
          rw [← h.2]
          exact ih hrec (rangeStep_nul hstep hn)

theorem parseClass_nul {s : List Char} {f : Frag} {r : List Char}
    (h : parseClass s = .ok (f, r)) (hn : nul ∈ s) : nul ∈ r := by
  unfold parseClass at h
  dsimp only at h
  have hn1 : nul ∈ (if s.head? = some '^' ∨ s.head? = some '!'
      then s.tail else s) := by
    split
    · rename_i hcond
      rcases hcond with hc | hc
      · exact mem_tail_of_head hn hc (by decide)
      · exact mem_tail_of_head hn hc (by decide)
    · exact hn
  set s1 := if s.head? = some '^' ∨ s.head? = some '!' then s.tail else s
    with hs1
  have hn2 : nul ∈ (if closeBracketLit s1 then s1.tail else s1) := by
    split
    · rename_i hcb
      unfold closeBracketLit at hcb
      rw [Bool.and_eq_true] at hcb
      have hhead : s1.head? = some ']' := by
        have := hcb.1
        simpa using this
      exact mem_tail_of_head hn1 hhead (by decide)
    · exact hn1
  set s2 := if closeBracketLit s1 then s1.tail else s1 with hs2
  cases hloop : rangeLoopF (s2.length + 1) s2 with
  | error e => rw [hloop] at h; exact absurd h (by simp)
  | ok p =>
    rw [hloop] at h
    obtain ⟨items, r2⟩ := p
    dsimp only at h
    injection h with h
    rw [Prod.mk.injEq] at h
    rw [← h.2]
    exact rangeLoopF_nul _ hloop hn2

theorem gsReps_nul : ∀ (s : List Char), nul ∈ s →
    nul ∈ s.drop (3 * gsReps s)
  | [] => by simp
  | [a] => fun hn => hn
  | [a, b] => fun hn => hn
  | a :: b :: c :: t => by
    intro hn
    by_cases hstar : a = '*' ∧ b = '*' ∧ c = '/'
    · obtain ⟨ha, hb, hc⟩ := hstar
      subst ha
      subst hb
      subst hc
      have hrw : gsReps ('*' :: '*' :: '/' :: t) = gsReps t + 1 := by
        simp [gsReps]
      simp only [List.mem_cons] at hn
      have hnt : nul ∈ t := by
        rcases hn with hn | hn | hn | hn
        · exact absurd hn.symm (by decide)
        · exact absurd hn.symm (by decide)
        · exact absurd hn.symm (by decide)
        · exact hn
      have ih := gsReps_nul t hnt
      rw [hrw]
      have harith : 3 * (gsReps t + 1) = 3 * gsReps t + 3 := by ring
      rw [harith]
      exact ih
    · have hz : gsReps (a :: b :: c :: t) = 0 := by
        simp only [gsReps]
        rw [if_neg hstar]
      rw [hz]
      simpa using hn

theorem tokStep_nul {s : List Char} {f : Frag} {r : List Char}
    (h : tokStep s = .ok (f, r)) (hn : nul ∈ s) : nul ∈ r := by
  unfold tokStep at h
  by_cases h1 : s = ['/', '*', '*']
  · rw [h1] at hn
    exact absurd hn (by decide)
  · rw [if_neg h1] at h
    by_cases h2 : s.head? = some '/' ∧ 1 ≤ gsReps s.tail
    · rw [if_pos h2] at h
      injection h with h
      rw [Prod.mk.injEq] at h
      rw [← h.2]
      have hnt : nul ∈ s.tail := mem_tail_of_head hn h2.1 (by decide)
      have ih := gsReps_nul s.tail hnt
      have heq : ∀ (k : Nat), s.drop (1 + k) = s.tail.drop k := by
        intro k
        conv_rhs => rw [← List.drop_one, List.drop_drop]
      rw [heq]
      exact ih
    · rw [if_neg h2] at h
      by_cases h3 : 1 ≤ gsReps s
      · rw [if_pos h3] at h
        injection h with h
        rw [Prod.mk.injEq] at h
        rw [← h.2]
        exact gsReps_nul s hn
      · rw [if_neg h3] at h
        cases s with
        | nil => simp at hn
        | cons a t =>
          dsimp only at h
          simp only [List.mem_cons] at hn
          by_cases hq : a = '?'
          · rw [if_pos hq] at h
            injection h with h
            rw [Prod.mk.injEq] at h
            rw [← h.2]
            rcases hn with hn | hn
            · rw [← hn] at hq
              exact absurd hq (by decide)
            · exact hn
          · rw [if_neg hq] at h
            by_cases hst : a = '*'
            · rw [if_pos hst] at h
              have hnt : nul ∈ t := by
                rcases hn with hn | hn
                · rw [← hn] at hst
                  exact absurd hst (by decide)
                · exact hn
              by_cases hst2 : t.head? = some '*'
              · rw [if_pos hst2] at h
                injection h with h
                rw [Prod.mk.injEq] at h
                rw [← h.2]
                exact mem_tail_of_head hnt hst2 (by decide)
              · rw [if_neg hst2] at h
                injection h with h
                rw [Prod.mk.injEq] at h
                rw [← h.2]
                exact hnt
            · rw [if_neg hst] at h
              by_cases hbr : a = '['
              · rw [if_pos hbr] at h
                have hnt : nul ∈ t := by
                  rcases hn with hn | hn
                  · rw [← hn] at hbr
                    exact absurd hbr (by decide)
                  · exact hn
                exact parseClass_nul h hnt
              · rw [if_neg hbr] at h
                by_cases hbs : a = '\\'
                · rw [if_pos hbs] at h
                  cases t with
                  | nil => exact absurd h (by simp)
                  | cons c t' =>
                    dsimp only at h
                    simp only [List.mem_cons] at hn
                    by_cases hcn : c = nul
                    · rw [if_pos hcn] at h
                      exact absurd h (by simp)
                    · rw [if_neg hcn] at h
                      injection h with h
                      rw [Prod.mk.injEq] at h
                      rw [← h.2]
                      rcases hn with hn | hn | hn
                      · rw [← hn] at hbs
                        exact absurd hbs (by decide)
                      · exact absurd hn.symm hcn
                      · exact hn
                · rw [if_neg hbs] at h
                  by_cases han : a = nul
                  · rw [if_pos han] at h
                    exact absurd h (by simp)
                  · rw [if_neg han] at h
                    injection h with h
                    rw [Prod.mk.injEq] at h
                    rw [← h.2]
                    rcases hn with hn | hn
                    · exact absurd hn.symm han
                    · exact hn

theorem tokLoopF_nul : ∀ (fuel : Nat) {s : List Char}, nul ∈ s →
    ∃ e, tokLoopF fuel s = .error e := by
  intro fuel
  induction fuel with
  | zero => intro s _; exact ⟨⟨[]⟩, rfl⟩
  | succ n ih =>
    intro s hn
    have hne : s ≠ [] := by
      intro h0
      rw [h0] at hn
      simp at hn
    simp only [tokLoopF]
    cases s with
    | nil => simp at hn
    | cons a t =>
      cases hstep : tokStep (a :: t) with
      | error e => exact ⟨e, rfl⟩
      | ok p =>
        obtain ⟨f, r⟩ := p
        obtain ⟨e, he⟩ := ih (tokStep_nul hstep hn)
        dsimp only
        rw [he]
        exact ⟨e, rfl⟩

/-- A non-comment pattern containing NUL always raises
`InvalidPatternError` with the original pattern as payload. -/
theorem pattern2regex_nul {q : List Char} {ic : Bool} (hn : nul ∈ q)
    (hh : q.head? ≠ some '#') : pattern2regex q ic = .error ⟨q⟩ := by
  have hnt : nul ∈ trimTrailingSpaces q := by
    obtain ⟨u, hqu, hu⟩ := trim_decomp q
    rw [hqu] at hn
    rcases List.mem_append.mp hn with h | h
    · exact h
    · exact absurd (hu _ h) (by decide)
  have hht : (trimTrailingSpaces q).head? ≠ some '#' := by
    intro hc
    have hne : trimTrailingSpaces q ≠ [] := by
      intro h0
      rw [h0] at hc
      simp at hc
    obtain ⟨u, hqu, -⟩ := trim_decomp q
    refine hh ?_
    rw [hqu, head?_append_left hne, hc]
  unfold pattern2regex
  dsimp only
  rw [if_neg hht]
  by_cases hneg : (trimTrailingSpaces q).head? = some '!'
  · simp only [hneg, if_true, true_and]
    have hn1 : nul ∈ (trimTrailingSpaces q).tail :=
      mem_tail_of_head hnt hneg (by decide)
    have htne : (trimTrailingSpaces q).tail ≠ [] := by
      intro h0
      rw [h0] at hn1
      simp at hn1
    rw [if_neg htne]
    have hdl : nul ∈ (if (trimTrailingSpaces q).tail.getLast? = some '/'
        then (trimTrailingSpaces q).tail.dropLast
        else (trimTrailingSpaces q).tail) := by
      split
      · rename_i hdir
        have hsplit := List.dropLast_append_getLast? _ (Option.mem_def.mpr hdir)
        rcases List.mem_append.mp (hsplit.symm ▸ hn1) with hx | hx
        · exact hx
        · simp only [List.mem_singleton] at hx
          exact absurd hx.symm (by decide)
      · exact hn1
    set p2 := if (trimTrailingSpaces q).tail.getLast? = some '/'
        then (trimTrailingSpaces q).tail.dropLast
        else (trimTrailingSpaces q).tail with hp2eq
    have hp2ne : p2 ≠ [] := by
      intro h0
      rw [h0] at hdl
      simp at hdl
    rw [if_neg hp2ne]
    have hp3 : nul ∈ (if 1 ≤ gsReps p2 then p2.drop (3 * gsReps p2)
        else if p2.head? = some '/' then p2.tail else p2) := by
      split
      · exact gsReps_nul p2 hdl
      · split
        · rename_i hsl
          exact mem_tail_of_head hdl hsl (by decide)
        · exact hdl
    set p3 := if 1 ≤ gsReps p2 then p2.drop (3 * gsReps p2)
        else if p2.head? = some '/' then p2.tail else p2 with hp3eq
    obtain ⟨e, he⟩ := tokLoopF_nul (p3.length + 1) hp3
    rw [he]
  · simp only [hneg, false_and, if_false]
    have hdl : nul ∈ (if (trimTrailingSpaces q).getLast? = some '/'
        then (trimTrailingSpaces q).dropLast
        else (trimTrailingSpaces q)) := by
      split
      · rename_i hdir
        have hsplit := List.dropLast_append_getLast? _ (Option.mem_def.mpr hdir)
        rcases List.mem_append.mp (hsplit.symm ▸ hnt) with hx | hx
        · exact hx
        · simp only [List.mem_singleton] at hx
          exact absurd hx.symm (by decide)
      · exact hnt
    set p2 := if (trimTrailingSpaces q).getLast? = some '/'
        then (trimTrailingSpaces q).dropLast
        else (trimTrailingSpaces q) with hp2eq
    have hp2ne : p2 ≠ [] := by
      intro h0
      rw [h0] at hdl
      simp at hdl
    rw [if_neg hp2ne]
    have hp3 : nul ∈ (if 1 ≤ gsReps p2 then p2.drop (3 * gsReps p2)
        else if p2.head? = some '/' then p2.tail else p2) := by
      split
      · exact gsReps_nul p2 hdl
      · split
        · rename_i hsl
          exact mem_tail_of_head hdl hsl (by decide)
        · exact hdl
    set p3 := if 1 ≤ gsReps p2 then p2.drop (3 * gsReps p2)
        else if p2.head? = some '/' then p2.tail else p2 with hp3eq
    obtain ⟨e, he⟩ := tokLoopF_nul (p3.length + 1) hp3
    rw [he]

/-- Witness for C6 at `"a/b/c"`. -/
theorem c6_witness :
    ("a/b/c".toList.head? ≠ some '/') ∧
      ∃ l, pathwayFuel ("a/b/c".toList.length + 1) "a/b/c".toList = some l ∧
        l.Chain' (fun a b => a.length < b.length) ∧
        (∀ x ∈ l, x <+: "a/b/c".toList ∧
          (x ≠ "a/b/c".toList →
            ("a/b/c".toList.drop x.length).head? = some '/')) ∧
        ("a/b/c".toList ≠ [] → l.getLast? = some "a/b/c".toList) :=
  ⟨by decide, c6_pathway_total.1 _ (by decide)⟩

/-- C7 counterexample: the pattern `#` followed by a NUL character contains
an embedded NUL yet translates to `Except.ok none` (it is taken for a
comment), not to an `InvalidPatternError`. -/
theorem c7_counterexample :
    nul ∈ ('#' :: [nul]) ∧
      pattern2regex ('#' :: [nul]) false = .ok none := by
  decide

/-- C7 (corrected): each of the thirteen listed malformed patterns makes
`pattern2regex` return an `InvalidPatternError` whose payload is the
original pre-trim input, for either ignorecase setting; and every pattern
containing an embedded NUL fails the same way provided it does not begin
with `#` (a NUL-carrying comment instead translates to `none`). -/
theorem c7_invalid_patterns :
    (∀ ic, pattern2regex ("\\".toList) ic = .error ⟨"\\".toList⟩) ∧
    (∀ ic, pattern2regex ("foo\\/".toList) ic = .error ⟨"foo\\/".toList⟩) ∧
    (∀ ic, pattern2regex ("[z-a]".toList) ic = .error ⟨"[z-a]".toList⟩) ∧
    (∀ ic, pattern2regex ("[!".toList) ic = .error ⟨"[!".toList⟩) ∧
    (∀ ic, pattern2regex ("a[]b".toList) ic = .error ⟨"a[]b".toList⟩) ∧
    (∀ ic, pattern2regex ("ab[".toList) ic = .error ⟨"ab[".toList⟩) ∧
    (∀ ic, pattern2regex ("[-".toList) ic = .error ⟨"[-".toList⟩) ∧
    (∀ ic, pattern2regex ("[ab".toList) ic = .error ⟨"[ab".toList⟩) ∧
    (∀ ic, pattern2regex ("[^ab".toList) ic = .error ⟨"[^ab".toList⟩) ∧
    (∀ ic, pattern2regex ("[[:XDIGIT:]]".toList) ic
      = .error ⟨"[[:XDIGIT:]]".toList⟩) ∧
    (∀ ic, pattern2regex ("[[:glarch:]]".toList) ic
      = .error ⟨"[[:glarch:]]".toList⟩) ∧
    (∀ ic, pattern2regex ("[[::]ab]".toList) ic
      = .error ⟨"[[::]ab]".toList⟩) ∧
    (∀ ic, pattern2regex ("[[::]ab".toList) ic
      = .error ⟨"[[::]ab".toList⟩) ∧
    (∀ (q : List Char) (ic : Bool), nul ∈ q → q.head? ≠ some '#' →
      pattern2regex q ic = .error ⟨q⟩) := by
  refine ⟨by decide, by decide, by decide, by decide, by decide, by decide,
    by decide, by decide, by decide, by decide, by decide, by decide,
    by decide, ?_⟩
  intro q ic hn hh
  exact pattern2regex_nul hn hh

/-- Witness for C7 at the concrete NUL-carrying pattern `a`, NUL, `b`. -/
theorem c7_witness :
    pattern2regex ('a' :: nul :: ['b']) false
      = .error ⟨'a' :: nul :: ['b']⟩ :=
  c7_invalid_patterns.2.2.2.2.2.2.2.2.2.2.2.2.2 ('a' :: nul :: ['b']) false
    (by decide) (by decide)

end Gitmatch
